import Mathlib

/-!
Verification development for the navi2move serial-protocol tool
(source: conn2m.py).

The Python source is shallowly embedded: byte strings become `List Nat`
(every byte value is a natural number below 256, stated as a hypothesis
where it matters), Python ints become `Int`/`Nat` with explicit `% 2^w`
at the points where `struct.pack` truncates to a machine width, and
functions that can raise become `Option`-valued, with `none` standing
for the raised exception.  Each definition carries a comment naming the
Python function it embeds.
-/

namespace Navi2Move

/-! ## Little-endian byte packing helpers (struct.pack / struct.unpack)

`struct.pack` raises on out-of-range values; the range conditions are
carried as hypotheses of the theorems, and the definitions truncate
explicitly with `%` so that they are total.
-/

/-- `struct.pack("<H", v)`: two little-endian bytes of an unsigned 16-bit value. -/
def le16 (v : Nat) : List Nat := [v % 256, v / 256 % 256]

/-- `struct.pack("<I", v)`: four little-endian bytes of an unsigned 32-bit value. -/
def le32 (v : Nat) : List Nat :=
  [v % 256, v / 256 % 256, v / 65536 % 256, v / 16777216 % 256]

/-- `struct.pack("<h", v)` / `struct.pack("<i", v)` both store the value in
two-respectively-four-byte little-endian two's complement; the shared core
takes the value modulo `2^w` first (`Int.emod` is non-negative here). -/
def le16i (v : Int) : List Nat := le16 (v % 65536).toNat

/-- `struct.pack("<i", v)`: four little-endian two's-complement bytes. -/
def le32i (v : Int) : List Nat := le32 (v % 4294967296).toNat

/-- `struct.unpack("<H", ...)` read at offset `off` of a byte list. -/
def rd16 (l : List Nat) (off : Nat) : Nat :=
  l.getD off 0 + 256 * l.getD (off + 1) 0

/-- `struct.unpack("<I", ...)` read at offset `off` of a byte list. -/
def rd32 (l : List Nat) (off : Nat) : Nat :=
  l.getD off 0 + 256 * l.getD (off + 1) 0 + 65536 * l.getD (off + 2) 0 +
    16777216 * l.getD (off + 3) 0

/-- Reinterpret an unsigned 32-bit value as signed (`struct.unpack("<i", ...)`). -/
def asI32 (u : Nat) : Int :=
  if u < 2147483648 then (u : Int) else (u : Int) - 4294967296

theorem le16_length (v : Nat) : (le16 v).length = 2 := rfl

theorem le32_length (v : Nat) : (le32 v).length = 4 := rfl

theorem le32i_length (v : Int) : (le32i v).length = 4 := rfl

theorem rd16_le16 (v : Nat) : rd16 (le16 v) 0 = v % 65536 := by
  simp only [rd16, le16, List.getD_cons_zero, List.getD_cons_succ]
  omega

theorem rd32_le32 (v : Nat) : rd32 (le32 v) 0 = v % 4294967296 := by
  simp only [rd32, le32, List.getD_cons_zero, List.getD_cons_succ]
  omega

theorem asI32_rd32_le32i (v : Int) (h1 : -2147483648 ≤ v) (h2 : v < 2147483648) :
    asI32 (rd32 (le32i v) 0) = v := by
  rw [le32i, rd32_le32, asI32]
  split <;> omega

theorem le16_inj {a b : Nat} (ha : a < 65536) (hb : b < 65536) (h : le16 a = le16 b) :
    a = b := by
  simp only [le16, List.cons.injEq, and_true] at h
  omega

/-! ## Track.split (conn2m.py, Track.split)

A `TrackPoint` is modelled by the one field `split` inspects, its
timestamp (`self.timestamp` in the source; an offset plus a fixed epoch
constant, so differences of timestamps are differences of the raw
int32 values and an integer model is exact). -/

structure TrackPoint where
  timestamp : Int
  deriving DecidableEq, Repr

instance : Inhabited TrackPoint := ⟨⟨0⟩⟩

/-- The inner accumulation of `Track.split` once at least one point has been
seen: `cur` is the Python `curTrack` (non-empty in this phase), and the
returned list is what gets appended to `tracks`.  Mirrors the
`for point in self.points` loop body plus the final `else: tracks.append(curTrack)`. -/
def splitRun (minTimeDiff : Int) (cur : List TrackPoint) :
    List TrackPoint → List (List TrackPoint)
  | [] => [cur]
  | p :: rest =>
    if h : cur = [] then
      splitRun minTimeDiff [p] rest
    else if p.timestamp - (cur.getLast h).timestamp < minTimeDiff then
      splitRun minTimeDiff (cur ++ [p]) rest
    else
      cur :: splitRun minTimeDiff [p] rest

/-- `Track.split(minTimeDiff)` from conn2m.py: split the point list at gaps
of at least `minTimeDiff` seconds.  (The Python method wraps each returned
segment back into a `Track`; the segments themselves are modelled.) -/
def Track.split (minTimeDiff : Int) (points : List TrackPoint) :
    List (List TrackPoint) :=
  splitRun minTimeDiff [] points

theorem splitRun_join (minTimeDiff : Int) (ps : List TrackPoint) :
    ∀ cur, (splitRun minTimeDiff cur ps).flatten = cur ++ ps := by
  induction ps with
  | nil => intro cur; simp [splitRun]
  | cons p rest ih =>
    intro cur
    rw [splitRun]
    split
    · simp only [ih]
      subst cur
      simp
    · split
      · simp [ih]
      · simp [ih]

theorem splitRun_ne_nil (minTimeDiff : Int) (ps : List TrackPoint) :
    ∀ cur, cur ≠ [] → ∀ t ∈ splitRun minTimeDiff cur ps, t ≠ [] := by
  induction ps with
  | nil => intro cur hc t ht; simp [splitRun] at ht; simpa [ht]
  | cons p rest ih =>
    intro cur hc t ht
    rw [splitRun] at ht
    rw [dif_neg hc] at ht
    split at ht
    · exact ih _ (by simp) t ht
    · rcases List.mem_cons.mp ht with h | h
      · simpa [h]
      · exact ih _ (by simp) t h

/-- The first point of the first segment returned by `splitRun` is the first
point of `cur` (new points are only ever appended at the back). -/
theorem splitRun_head (minTimeDiff : Int) (ps : List TrackPoint) :
    ∀ cur, cur ≠ [] →
      (splitRun minTimeDiff cur ps).head?.bind (fun t => t.head?) = cur.head? := by
  induction ps with
  | nil => intro cur hc; simp [splitRun]
  | cons p rest ih =>
    intro cur hc
    rw [splitRun, dif_neg hc]
    split
    · rw [ih (cur ++ [p]) (by simp)]
      rcases cur with _ | ⟨c, cs⟩
      · exact absurd rfl hc
      · simp
    · simp

theorem splitRun_chain_within (minTimeDiff : Int) (ps : List TrackPoint) :
    ∀ cur, List.Chain' (fun a b => b.timestamp - a.timestamp < minTimeDiff) cur →
      ∀ t ∈ splitRun minTimeDiff cur ps,
        List.Chain' (fun a b => b.timestamp - a.timestamp < minTimeDiff) t := by
  induction ps with
  | nil => intro cur hc t ht; simp only [splitRun, List.mem_singleton] at ht; simpa [ht]
  | cons p rest ih =>
    intro cur hc t ht
    rw [splitRun] at ht
    split at ht
    · exact ih [p] (by simp) t ht
    · rename_i hcur
      split at ht
      · rename_i hlt
        refine ih (cur ++ [p]) ?_ t ht
        rw [List.chain'_append]
        refine ⟨hc, by simp, ?_⟩
        intro x hx y hy
        rw [List.getLast?_eq_getLast cur hcur, Option.mem_some_iff] at hx
        simp only [List.head?_cons, Option.mem_some_iff] at hy
        subst hx; subst hy
        exact hlt
      · rcases List.mem_cons.mp ht with h | h
        · exact h ▸ hc
        · exact ih [p] (by simp) t h

theorem splitRun_chain_between (minTimeDiff : Int) (ps : List TrackPoint) :
    ∀ cur, cur ≠ [] →
      List.Chain'
        (fun a b => ∀ x ∈ a.getLast?, ∀ y ∈ b.head?,
          minTimeDiff ≤ y.timestamp - x.timestamp)
        (splitRun minTimeDiff cur ps) := by
  induction ps with
  | nil => intro cur hc; simp [splitRun]
  | cons p rest ih =>
    intro cur hc
    rw [splitRun, dif_neg hc]
    split
    · exact ih (cur ++ [p]) (by simp)
    · rename_i hge
      rw [List.chain'_cons']
      refine ⟨?_, ih [p] (by simp)⟩
      intro y hy x hx z hz
      have hh := splitRun_head minTimeDiff rest [p] (by simp)
      rcases hmem : (splitRun minTimeDiff [p] rest).head? with _ | t
      · rw [hmem] at hy; exact absurd hy (by simp)
      · rw [hmem] at hy hh
        simp only [Option.mem_some_iff] at hy
        subst hy
        simp only [Option.some_bind, List.head?_cons] at hh
        rw [List.getLast?_eq_getLast cur hc, Option.mem_some_iff] at hx
        rw [hh, Option.mem_some_iff] at hz
        subst hx; subst hz
        omega

/-- C5.  `Track.split` with threshold 3600 partitions a non-empty point
sequence, in order, into non-empty segments: concatenating the segments
gives back the input, inside a segment every consecutive gap is < 3600,
at every boundary between segments the gap is ≥ 3600, and on the
timestamp sequence [0, 10, 3700, 3710] the result is exactly
[[0, 10], [3700, 3710]]. -/
theorem track_split_spec (points : List TrackPoint) (h : points ≠ []) :
    (Track.split 3600 points).flatten = points ∧
    (∀ t ∈ Track.split 3600 points, t ≠ []) ∧
    (∀ t ∈ Track.split 3600 points,
      List.Chain' (fun a b => b.timestamp - a.timestamp < 3600) t) ∧
    List.Chain'
      (fun a b => ∀ x ∈ a.getLast?, ∀ y ∈ b.head?,
        3600 ≤ y.timestamp - x.timestamp)
      (Track.split 3600 points) ∧
    Track.split 3600 [⟨0⟩, ⟨10⟩, ⟨3700⟩, ⟨3710⟩] =
      [[⟨0⟩, ⟨10⟩], [⟨3700⟩, ⟨3710⟩]] := by
  rcases points with _ | ⟨p, rest⟩
  · exact absurd rfl h
  · have hunfold : Track.split 3600 (p :: rest) = splitRun 3600 [p] rest := by
      rw [Track.split, splitRun, dif_pos rfl]
    refine ⟨?_, ?_, ?_, ?_, by decide⟩
    · rw [hunfold, splitRun_join]; rfl
    · rw [hunfold]; exact splitRun_ne_nil 3600 rest [p] (by simp)
    · rw [hunfold]; exact splitRun_chain_within 3600 rest [p] (by simp)
    · rw [hunfold]; exact splitRun_chain_between 3600 rest [p] (by simp)

/-- C5 witness: the theorem applied at the concrete one-point sequence. -/
theorem track_split_spec_witness :
    ([⟨0⟩] : List TrackPoint) ≠ [] ∧
      (Track.split 3600 [⟨0⟩]).flatten = [⟨0⟩] :=
  ⟨by simp, (track_split_spec [⟨0⟩] (by simp)).1⟩

/-! ## Send path acknowledge handling (conn2m.py, NaviConnection)

The device side is modelled by a finite script of received bytes.  The
bounded acknowledge wait (default 10 s) elapsing without an acknowledge
byte — the `TimeoutError` case, which the source reports and then aborts
the whole run — is modelled by exhausting the script, and surfaces as
`none`. -/

/-- `NaviConnection.waitForAcknowledge`: read bytes until a negative
acknowledge 0x15 (returns `false`) or a positive acknowledge 0x06
(returns `true`); any other byte is skipped.  `none` is the timeout. -/
def waitForAcknowledge : List Nat → Option (Bool × List Nat)
  | [] => none
  | b :: rest =>
    if b = 0x15 then some (false, rest)
    else if b = 0x06 then some (true, rest)
    else waitForAcknowledge rest

theorem waitForAcknowledge_shrinks :
    ∀ {l : List Nat} {b : Bool} {r : List Nat},
      waitForAcknowledge l = some (b, r) → r.length < l.length := by
  intro l
  induction l with
  | nil => intro b r h; exact absurd h (by simp [waitForAcknowledge])
  | cons x xs ih =>
    intro b r h
    rw [waitForAcknowledge] at h
    split at h
    · cases h; simp
    · split at h
      · cases h; simp
      · exact Nat.lt_trans (ih h) (by simp)

/-- The per-chunk body of the `for chunk in dataChunks` loop of
`NaviConnection.sendData`: the chunk is written, then while the
acknowledge is negative it is written again.  Returns how many times the
chunk was written and the rest of the script; `none` when a wait times
out (the source then aborts). -/
def sendChunkRetry (script : List Nat) : Option (Nat × List Nat) :=
  match h : waitForAcknowledge script with
  | none => none
  | some (true, rest) => some (1, rest)
  | some (false, rest) =>
    match sendChunkRetry rest with
    | none => none
    | some (n, r) => some (n + 1, r)
termination_by script.length
decreasing_by exact waitForAcknowledge_shrinks h

/-- The chunk loop of `NaviConnection.sendData`: for each chunk, send it
and repeat on negative acknowledge; the returned list is the sequence of
chunk payloads actually written, in order. -/
def sendChunksLoop (chunks : List (List Nat)) (script : List Nat) :
    Option (List (List Nat) × List Nat) :=
  match chunks with
  | [] => some ([], script)
  | c :: cs =>
    match sendChunkRetry script with
    | none => none
    | some (n, rest) =>
      match sendChunksLoop cs rest with
      | none => none
      | some (ws, r) => some (List.replicate n c ++ ws, r)

/-- `NaviConnection.sendData` after framing: the initial acknowledge wait
(whose positive/negative outcome the source discards), then the chunk
loop.  The trailing end-of-transmission exchange does not affect the
claims and is not modelled. -/
def sendData (chunks : List (List Nat)) (script : List Nat) :
    Option (List (List Nat) × List Nat) :=
  match waitForAcknowledge script with
  | none => none
  | some (_, rest) => sendChunksLoop chunks rest

theorem sendChunkRetry_script (k : Nat) (rest : List Nat) :
    sendChunkRetry (List.replicate k 0x15 ++ 0x06 :: rest) = some (k + 1, rest) := by
  induction k with
  | zero =>
    rw [sendChunkRetry]
    simp [waitForAcknowledge]
  | succ n ih =>
    rw [sendChunkRetry]
    simp only [List.replicate_succ, List.cons_append]
    simp [waitForAcknowledge, ih]

/-- C7.  In the send path, each negative acknowledge (0x15) makes the
engine rewrite the identical chunk bytes and each positive acknowledge
(0x06) advances to the next chunk: under a script of `k` nacks followed
by an ack, the first chunk is written exactly `k + 1` times and the loop
continues with the remaining chunks on the remaining script; in
particular, under the script [nack, nack, ack] a single chunk is written
exactly three times and the loop completes only after the ack. -/
theorem sendData_retry_spec :
    (∀ (c : List Nat) (cs : List (List Nat)) (k : Nat) (rest : List Nat),
      sendChunksLoop (c :: cs) (List.replicate k 0x15 ++ 0x06 :: rest) =
        (sendChunksLoop cs rest).map
          (fun wr => (List.replicate (k + 1) c ++ wr.1, wr.2))) ∧
    (∀ c : List Nat,
      sendChunksLoop [c] [0x15, 0x15, 0x06] = some ([c, c, c], [])) := by
  constructor
  · intro c cs k rest
    rw [sendChunksLoop]
    rw [sendChunkRetry_script]
    rcases h : sendChunksLoop cs rest with _ | ⟨ws, r⟩
    · simp [h]
    · simp [h]
  · intro c
    have h : ([0x15, 0x15, 0x06] : List Nat) = List.replicate 2 0x15 ++ 0x06 :: [] := by
      decide
    rw [h, sendChunksLoop, sendChunkRetry_script]
    rfl

/-- C8.  The acknowledge wait fails (with the fatal `TimeoutError`)
exactly when no acknowledge byte — neither 0x06 nor 0x15 — arrives
within the bounded wait, and that failure aborts the send: it is
propagated by the chunk loop and by `sendData`, never retried and never
swallowed into a success. -/
theorem waitForAcknowledge_timeout_spec :
    (∀ script : List Nat,
      waitForAcknowledge script = none ↔
        ∀ b ∈ script, b ≠ 0x06 ∧ b ≠ 0x15) ∧
    (∀ (chunks : List (List Nat)) (script : List Nat),
      waitForAcknowledge script = none → sendData chunks script = none) ∧
    (∀ (c : List Nat) (cs : List (List Nat)) (script : List Nat),
      sendChunkRetry script = none → sendChunksLoop (c :: cs) script = none) := by
  refine ⟨?_, ?_, ?_⟩
  · intro script
    induction script with
    | nil => simp [waitForAcknowledge]
    | cons b rest ih =>
      rw [waitForAcknowledge]
      constructor
      · intro h
        split at h
        · exact absurd h (by simp)
        · split at h
          · exact absurd h (by simp)
          · intro x hx
            rcases List.mem_cons.mp hx with hx | hx
            · subst hx; omega
            · exact ih.mp h x hx
      · intro h
        have hb := h b (by simp)
        rw [if_neg (by omega), if_neg (by omega)]
        exact ih.mpr (fun x hx => h x (List.mem_cons_of_mem b hx))
  · intro chunks script h
    rw [sendData, h]
  · intro c cs script h
    rw [sendChunksLoop, h]

/-- C8 witness: the theorem applied to the concrete script [0x41], which
contains no acknowledge byte, and to a concrete timed-out chunk loop. -/
theorem waitForAcknowledge_timeout_spec_witness :
    (waitForAcknowledge [0x41] = none ∧ sendData [[1]] [0x41] = none) ∧
      sendChunksLoop [[1]] [] = none := by
  have h : waitForAcknowledge [0x41] = none :=
    (waitForAcknowledge_timeout_spec.1 [0x41]).mpr (by decide)
  refine ⟨⟨h, waitForAcknowledge_timeout_spec.2.1 [[1]] [0x41] h⟩, ?_⟩
  exact waitForAcknowledge_timeout_spec.2.2 [1] [] [] (by rw [sendChunkRetry]; rfl)

/-! ## Slicing a byte string into fixed-size pieces

The Python sources slice with `[l[i:i+p] for i in range(0, len(l), p)]`
(step 1024 in `makeChunks`, 76 in `Route.parseBin`, 2 in
`makeInCharTable`, the record length in `parseChunks`; `range` rejects
step 0, and every call site uses a positive step). -/

/-- Fuel-driven core of `sliceInto`; the fuel, initially the length of
the list, only serves to make the recursion structural and never runs
out. -/
def sliceIntoF (p : Nat) : Nat → List Nat → List (List Nat)
  | 0, _ => []
  | _ + 1, [] => []
  | fuel + 1, c :: cs => ((c :: cs).take p) :: sliceIntoF p fuel (cs.drop (p - 1))

/-- `[l[i:i+p] for i in range(0, len(l), p)]` for a positive step `p`:
successive slices of `p` bytes each, the last possibly shorter. -/
def sliceInto (p : Nat) (l : List Nat) : List (List Nat) :=
  sliceIntoF p l.length l

theorem sliceIntoF_fuel (p : Nat) :
    ∀ (fuel₁ fuel₂ : Nat) (l : List Nat), l.length ≤ fuel₁ → l.length ≤ fuel₂ →
      sliceIntoF p fuel₁ l = sliceIntoF p fuel₂ l := by
  intro fuel₁
  induction fuel₁ with
  | zero =>
    intro fuel₂ l hl _
    rw [List.length_eq_zero.mp (Nat.le_zero.mp hl)]
    cases fuel₂ <;> rfl
  | succ n ih =>
    intro fuel₂ l h1 h2
    rcases l with _ | ⟨c, cs⟩
    · cases fuel₂ <;> rfl
    · simp only [List.length_cons] at h1 h2
      rcases fuel₂ with _ | m
      · omega
      · rw [sliceIntoF, sliceIntoF]
        rw [ih m (cs.drop (p - 1)) (by simp; omega) (by simp; omega)]

theorem sliceInto_cons (p : Nat) (c : Nat) (cs : List Nat) :
    sliceInto p (c :: cs) = (c :: cs).take p :: sliceInto p (cs.drop (p - 1)) := by
  rw [sliceInto, List.length_cons, sliceIntoF, sliceInto]
  rw [sliceIntoF_fuel p cs.length (cs.drop (p - 1)).length (cs.drop (p - 1))
    (by simp) (by simp)]

/-- For a positive step, the defining one-step unfolding matches the
Python comprehension: first `p` bytes, then the slices of the rest. -/
theorem sliceInto_eq (p : Nat) (l : List Nat) (hp : 0 < p) (hl : l ≠ []) :
    sliceInto p l = l.take p :: sliceInto p (l.drop p) := by
  rcases l with _ | ⟨c, cs⟩
  · exact absurd rfl hl
  · rw [sliceInto_cons]
    rcases p with _ | n
    · omega
    · rw [List.drop_succ_cons, Nat.add_sub_cancel]

theorem sliceInto_full (p : Nat) (r s : List Nat) (hp : 0 < p)
    (hr : r.length = p) :
    sliceInto p (r ++ s) = r :: sliceInto p s := by
  have hne : r ++ s ≠ [] := by
    intro h
    rcases List.append_eq_nil.mp h with ⟨h1, _⟩
    rw [h1] at hr
    simp at hr
    omega
  rw [sliceInto_eq p (r ++ s) hp hne]
  rw [← hr, List.take_left, List.drop_left]

theorem sliceInto_short (p : Nat) (l : List Nat) (h1 : l ≠ [])
    (h2 : l.length ≤ p) :
    sliceInto p l = [l] := by
  have hp : 0 < p := by
    rcases l with _ | ⟨c, cs⟩
    · exact absurd rfl h1
    · simp at h2; omega
  rw [sliceInto_eq p l hp h1]
  rw [List.take_of_length_le h2, List.drop_of_length_le h2]
  rfl

/-! ## makeChunks (conn2m.py, NaviConnection.makeChunks) -/

/-- Framing of one chunk inside `makeChunks`:
`bytes((0x02, ind+1, 0xff-ind-1)) + chunk + bytes((sum(chunk)&0xff,))`.
`bytes(...)` raises `ValueError` when `ind+1` exceeds 255 (equivalently,
when `0xff-ind-1` is negative); that is the `none` case. -/
def frameChunk (ind : Nat) (chunk : List Nat) : Option (List Nat) :=
  if ind + 1 ≤ 255 then
    some (0x02 :: (ind + 1) :: (0xff - (ind + 1)) :: chunk ++ [chunk.sum % 256])
  else none

/-- The `for ind, chunk in enumerate(chunks)` framing loop of `makeChunks`,
started at index `ind`. -/
def formatChunks (ind : Nat) : List (List Nat) → Option (List (List Nat))
  | [] => some []
  | chunk :: rest =>
    match frameChunk ind chunk with
    | none => none
    | some f =>
      match formatChunks (ind + 1) rest with
      | none => none
      | some fs => some (f :: fs)

/-- `chunks[-1] = chunks[-1] + b"\xff"*(1024-len(chunks[-1]))`: pad the
final chunk with 0xff up to `p` bytes.  `chunks[-1]` raises `IndexError`
on an empty list; that is the `none` case. -/
def fillLast (p : Nat) (chunks : List (List Nat)) : Option (List (List Nat)) :=
  match chunks.getLast? with
  | none => none
  | some last =>
    some (chunks.dropLast ++ [last ++ List.replicate (p - last.length) 0xff])

/-- `NaviConnection.makeChunks`: slice the payload into 1024-byte chunks,
pad the last chunk with 0xff to full length, and frame every chunk. -/
def makeChunks (data : List Nat) : Option (List (List Nat)) :=
  match fillLast 1024 (sliceInto 1024 data) with
  | none => none
  | some padded => formatChunks 0 padded

theorem fillLast_cons (p : Nat) (a : List Nat) (l : List (List Nat))
    (h : l ≠ []) :
    fillLast p (a :: l) = (fillLast p l).map (fun x => a :: x) := by
  rcases l with _ | ⟨b, bs⟩
  · exact absurd rfl h
  · rw [fillLast, fillLast, List.getLast?_cons_cons]
    rcases hL : (b :: bs).getLast? with _ | last
    · exact absurd hL (by simp)
    · simp

theorem flatten_length_of_all (p : Nat) :
    ∀ l : List (List Nat), (∀ c ∈ l, c.length = p) →
      l.flatten.length = l.length * p := by
  intro l
  induction l with
  | nil => intro _; simp
  | cons c cs ih =>
    intro h
    simp only [List.flatten_cons, List.length_append, List.length_cons]
    rw [h c (by simp), ih (fun x hx => h x (List.mem_cons_of_mem c hx))]
    ring

theorem sliceInto_fillLast (p : Nat) (hp : 0 < p) :
    ∀ (n : Nat) (data : List Nat), data.length ≤ n → data ≠ [] →
      ∃ padded, fillLast p (sliceInto p data) = some padded ∧
        padded ≠ [] ∧
        padded.length = (data.length + p - 1) / p ∧
        (∀ c ∈ padded, c.length = p) ∧
        padded.flatten =
          data ++ List.replicate (padded.length * p - data.length) 0xff := by
  intro n
  induction n with
  | zero =>
    intro data hlen hne
    rw [List.length_eq_zero.mp (Nat.le_zero.mp hlen)] at hne
    exact absurd rfl hne
  | succ n ih =>
    intro data hlen hne
    rcases le_or_lt data.length p with hle | hgt
    · refine ⟨[data ++ List.replicate (p - data.length) 0xff], ?_, by simp, ?_, ?_, ?_⟩
      · rw [sliceInto_short p data hne hle, fillLast]
        rfl
      · have h1 : 1 ≤ data.length := List.length_pos.mpr hne
        have : (data.length + p - 1) / p = 1 := by
          apply Nat.div_eq_of_lt_le <;> omega
        simp [this]
      · intro c hc
        rw [List.mem_singleton.mp hc]
        simp only [List.length_append, List.length_replicate]
        omega
      · simp only [List.length_cons, List.length_nil, List.flatten_cons,
          List.flatten_nil, List.append_nil, List.append_cancel_left_eq]
        congr 1
        omega
    · have hdne : data.drop p ≠ [] := by
        intro hcon
        have := congrArg List.length hcon
        simp at this
        omega
      have hdlen : (data.drop p).length ≤ n := by simp; omega
      obtain ⟨padded, hfill, hpne, hplen, hpall, hpflat⟩ := ih (data.drop p) hdlen hdne
      have hslice : sliceInto p data = data.take p :: sliceInto p (data.drop p) :=
        sliceInto_eq p data hp hne
      have hsne : sliceInto p (data.drop p) ≠ [] := by
        rw [sliceInto_eq p (data.drop p) hp hdne]
        simp
      refine ⟨data.take p :: padded, ?_, by simp, ?_, ?_, ?_⟩
      · rw [hslice, fillLast_cons p (data.take p) (sliceInto p (data.drop p)) hsne]
        rw [hfill]
        rfl
      · simp only [List.length_cons, hplen]
        simp only [List.length_drop]
        have h1 : data.length - p + p - 1 = data.length - 1 := by omega
        rw [h1]
        have h2 : (data.length - 1) / p + 1 = (data.length - 1 + p) / p := by
          rw [Nat.add_div_right _ hp]
        rw [h2]
        congr 1
        omega
      · intro c hc
        rcases List.mem_cons.mp hc with hc | hc
        · rw [hc, List.length_take]
          omega
        · exact hpall c hc
      · simp only [List.flatten_cons, hpflat]
        have hq : padded.flatten.length = padded.length * p :=
          flatten_length_of_all p padded hpall
        rw [hpflat] at hq
        simp only [List.length_append, List.length_drop, List.length_replicate] at hq
        rw [← List.append_assoc, List.take_append_drop]
        congr 2
        simp only [List.length_cons, List.length_drop, Nat.succ_mul]
        omega

theorem formatChunks_cons_ok (ind : Nat) (c : List Nat) (rest : List (List Nat))
    (h : ind + 1 ≤ 255) :
    formatChunks ind (c :: rest) =
      match formatChunks (ind + 1) rest with
      | none => none
      | some fs =>
        some ((0x02 :: (ind + 1) :: (0xff - (ind + 1)) :: c ++ [c.sum % 256]) :: fs) := by
  rw [formatChunks, frameChunk, if_pos h]

theorem formatChunks_cons_over (ind : Nat) (c : List Nat) (rest : List (List Nat))
    (h : 255 < ind + 1) :
    formatChunks ind (c :: rest) = none := by
  rw [formatChunks, frameChunk, if_neg (by omega)]

theorem formatChunks_none (l : List (List Nat)) :
    ∀ ind, (formatChunks ind l = none ↔ l ≠ [] ∧ 255 < ind + l.length) := by
  induction l with
  | nil => intro ind; simp [formatChunks]
  | cons c rest ih =>
    intro ind
    simp only [List.length_cons]
    rcases le_or_lt (ind + 1) 255 with hle | hgt
    · rw [formatChunks_cons_ok ind c rest hle]
      rcases hF : formatChunks (ind + 1) rest with _ | fs
      · have h2 := (ih (ind + 1)).mp hF
        exact ⟨fun _ => ⟨by simp, by omega⟩, fun _ => rfl⟩
      · constructor
        · intro hcon; exact absurd hcon (by simp)
        · rintro ⟨-, h2⟩
          rcases eq_or_ne rest [] with hr | hr
          · subst hr; simp at h2; omega
          · have h3 := (ih (ind + 1)).mpr ⟨hr, by omega⟩
            rw [hF] at h3
            exact absurd h3 (by simp)
    · rw [formatChunks_cons_over ind c rest hgt]
      exact ⟨fun _ => ⟨by simp, by omega⟩, fun _ => rfl⟩

theorem formatChunks_some (l : List (List Nat)) :
    ∀ ind fs, formatChunks ind l = some fs →
      fs.length = l.length ∧
      (∀ i, i < l.length →
        fs.getD i [] = 0x02 :: (ind + i + 1) :: (0xff - (ind + i + 1)) ::
          (l.getD i [] ++ [(l.getD i []).sum % 256])) := by
  induction l with
  | nil =>
    intro ind fs h
    rw [formatChunks] at h
    cases h
    exact ⟨rfl, by intro i hi; simp at hi⟩
  | cons c rest ih =>
    intro ind fs h
    rcases le_or_lt (ind + 1) 255 with hle | hgt
    · rw [formatChunks_cons_ok ind c rest hle] at h
      rcases hF : formatChunks (ind + 1) rest with _ | fs2
      · rw [hF] at h; exact absurd h (by simp)
      · rw [hF] at h
        simp only [Option.some.injEq] at h
        subst h
        obtain ⟨hlen, hget⟩ := ih (ind + 1) fs2 hF
        refine ⟨by simp [hlen], ?_⟩
        intro i hi
        rcases i with _ | j
        · simp
        · simp only [List.getD_cons_succ]
          rw [hget j (by simp at hi; omega)]
          have harith : ind + 1 + j + 1 = ind + (j + 1) + 1 := by omega
          rw [harith]
    · rw [formatChunks_cons_over ind c rest hgt] at h
      exact absurd h (by simp)

theorem formatChunks_frame_lengths (p : Nat) (l : List (List Nat)) :
    ∀ ind fs, formatChunks ind l = some fs → (∀ c ∈ l, c.length = p) →
      ∀ f ∈ fs, f.length = p + 4 := by
  induction l with
  | nil =>
    intro ind fs h _
    rw [formatChunks] at h
    cases h
    simp
  | cons c rest ih =>
    intro ind fs h hall f hf
    rcases le_or_lt (ind + 1) 255 with hle | hgt
    · rw [formatChunks_cons_ok ind c rest hle] at h
      rcases hF : formatChunks (ind + 1) rest with _ | fs2
      · rw [hF] at h; exact absurd h (by simp)
      · rw [hF] at h
        simp only [Option.some.injEq] at h
        subst h
        rcases List.mem_cons.mp hf with hf | hf
        · subst hf
          simp only [List.length_cons, List.length_append, hall c (by simp),
            List.length_singleton, List.length_nil]
        · exact ih (ind + 1) fs2 hF
            (fun x hx => hall x (List.mem_cons_of_mem c hx)) f hf
    · rw [formatChunks_cons_over ind c rest hgt] at h
      exact absurd h (by simp)

/-- C6 (amended).  For a non-empty payload of at most 255 × 1024 bytes,
`makeChunks` partitions the payload into 1024-byte chunks, padding only
the final chunk with 0xff to full length, and frames the i-th chunk
(1-based sequence number) as exactly 1028 bytes: the start byte 0x02,
the byte i, the complement byte 0xff - i, the 1024 payload bytes and a
trailing sum-of-payload-mod-256 byte.  (The claim said 1029 bytes; the
send-path frame carries a one-byte checksum, so it is 1028.  The claim
also quantified over every non-empty payload; beyond 255 chunks the
sequence-number byte overflows and `makeChunks` raises instead.) -/
theorem makeChunks_frame_spec (data : List Nat) (h1 : data ≠ [])
    (h2 : data.length ≤ 255 * 1024) :
    ∃ (chunks frames : List (List Nat)),
      makeChunks data = some frames ∧
      chunks.length = (data.length + 1023) / 1024 ∧
      (∀ c ∈ chunks, c.length = 1024) ∧
      chunks.flatten =
        data ++ List.replicate (chunks.length * 1024 - data.length) 0xff ∧
      frames.length = chunks.length ∧
      (∀ i, i < chunks.length →
        frames.getD i [] = 0x02 :: (i + 1) :: (0xff - (i + 1)) ::
          (chunks.getD i [] ++ [(chunks.getD i []).sum % 256])) ∧
      (∀ f ∈ frames, f.length = 1028) := by
  obtain ⟨padded, hfill, hpne, hplen, hpall, hpflat⟩ :=
    sliceInto_fillLast 1024 (by norm_num) data.length data le_rfl h1
  have hplen2 : padded.length = (data.length + 1023) / 1024 := by
    rw [hplen]
    congr 1
  have hbound : padded.length ≤ 255 := by
    rw [hplen2]
    have : (data.length + 1023) / 1024 < 256 := by
      rw [Nat.div_lt_iff_lt_mul (by norm_num)]
      omega
    omega
  rcases hFmt : formatChunks 0 padded with _ | frames
  · rw [formatChunks_none padded 0] at hFmt
    omega
  · obtain ⟨hflen, hfget⟩ := formatChunks_some padded 0 frames hFmt
    refine ⟨padded, frames, ?_, hplen2, hpall, hpflat, hflen, ?_, ?_⟩
    · rw [makeChunks, hfill]
      exact hFmt
    · intro i hi
      rw [hfget i hi]
      congr 2
      · omega
      · congr 1
        omega
    · intro f hf
      exact formatChunks_frame_lengths 1024 padded 0 frames hFmt hpall f hf

/-- C6 counterexample: as frozen, the claim fails twice on the code.
A payload of 255 × 1024 + 1 bytes is non-empty yet `makeChunks` raises
(sequence number 256 does not fit a byte), and a framed chunk has 1028
bytes, not 1029. -/
theorem makeChunks_frame_counterexample :
    makeChunks (List.replicate 261121 0) = none ∧
      (makeChunks [0]).map (fun fs => fs.map List.length) = some [1028] := by
  constructor
  · obtain ⟨padded, hfill, hpne, hplen, hpall, hpflat⟩ :=
      sliceInto_fillLast 1024 (by norm_num) 261121 (List.replicate 261121 0)
        (le_of_eq (List.length_replicate 261121 0))
        (by
          intro hcon
          have hlen := congrArg List.length hcon
          rw [List.length_replicate] at hlen
          exact absurd hlen (by norm_num))
    have h256 : padded.length = 256 := by
      rw [hplen, List.length_replicate]
    rw [makeChunks, hfill]
    rw [formatChunks_none padded 0]
    rw [h256]
    exact ⟨hpne, by norm_num⟩
  · obtain ⟨padded, hfill, hpne, hplen, hpall, hpflat⟩ :=
      sliceInto_fillLast 1024 (by norm_num) 1 [0] (by simp) (by simp)
    have h1 : padded.length = 1 := by
      rw [hplen]
      norm_num
    rcases hFmt : formatChunks 0 padded with _ | frames
    · rw [formatChunks_none padded 0, h1] at hFmt
      omega
    · have hmk : makeChunks [0] = some frames := by
        rw [makeChunks, hfill]
        exact hFmt
      obtain ⟨hflen, -⟩ := formatChunks_some padded 0 frames hFmt
      rw [h1] at hflen
      obtain ⟨f, hf⟩ := List.length_eq_one.mp hflen
      have hlen1028 : f.length = 1028 :=
        formatChunks_frame_lengths 1024 padded 0 frames hFmt hpall f (by rw [hf]; simp)
      rw [hmk, hf]
      simp [hlen1028]

/-- C6 witness: the amended theorem applied at the one-byte payload. -/
theorem makeChunks_frame_spec_witness :
    ([1] : List Nat) ≠ [] ∧ ([1] : List Nat).length ≤ 255 * 1024 ∧
      ∃ (chunks frames : List (List Nat)),
        makeChunks [1] = some frames ∧
        chunks.length = (([1] : List Nat).length + 1023) / 1024 ∧
        (∀ c ∈ chunks, c.length = 1024) ∧
        chunks.flatten =
          [1] ++ List.replicate (chunks.length * 1024 - ([1] : List Nat).length) 0xff ∧
        frames.length = chunks.length ∧
        (∀ i, i < chunks.length →
          frames.getD i [] = 0x02 :: (i + 1) :: (0xff - (i + 1)) ::
            (chunks.getD i [] ++ [(chunks.getD i []).sum % 256])) ∧
        (∀ f ∈ frames, f.length = 1028) :=
  ⟨by simp, by norm_num, makeChunks_frame_spec [1] (by simp) (by norm_num)⟩

/-- C10.  `makeChunks` is only defined on non-empty payloads of at most
255 × 1024 bytes: an empty payload fails (the source indexes the last
element of an empty chunk list), a payload needing a sequence number
above 255 fails (byte value out of range), and every successful framing
yields between 1 and 255 chunks. -/
theorem makeChunks_domain_spec :
    makeChunks [] = none ∧
    (∀ data : List Nat, 255 * 1024 < data.length → makeChunks data = none) ∧
    (∀ data : List Nat, makeChunks data ≠ none →
      1 ≤ ((makeChunks data).getD []).length ∧
        ((makeChunks data).getD []).length ≤ 255) := by
  refine ⟨rfl, ?_, ?_⟩
  · intro data hlen
    have h1 : data ≠ [] := by
      intro hcon
      rw [hcon] at hlen
      simp at hlen
    obtain ⟨padded, hfill, hpne, hplen, hpall, hpflat⟩ :=
      sliceInto_fillLast 1024 (by norm_num) data.length data le_rfl h1
    have hbig : 256 ≤ padded.length := by
      rw [hplen]
      rw [Nat.le_div_iff_mul_le (by norm_num)]
      omega
    rw [makeChunks, hfill]
    rw [formatChunks_none padded 0]
    exact ⟨hpne, by omega⟩
  · intro data hne
    rcases hfill : fillLast 1024 (sliceInto 1024 data) with _ | padded
    · rw [makeChunks, hfill] at hne
      exact absurd rfl hne
    · have hmk : makeChunks data = formatChunks 0 padded := by
        rw [makeChunks, hfill]
      rw [hmk] at hne ⊢
      rcases hFmt : formatChunks 0 padded with _ | frames
      · exact absurd hFmt hne
      · obtain ⟨hflen, -⟩ := formatChunks_some padded 0 frames hFmt
        have hpne : padded ≠ [] := by
          rw [fillLast] at hfill
          rcases hL : (sliceInto 1024 data).getLast? with _ | last
          · rw [hL] at hfill; exact absurd hfill (by simp)
          · rw [hL] at hfill
            simp only [Option.some.injEq] at hfill
            subst hfill
            simp
        have hle : padded.length ≤ 255 := by
          by_contra hcon
          have hnone : formatChunks 0 padded = none :=
            (formatChunks_none padded 0).mpr ⟨hpne, by omega⟩
          rw [hnone] at hFmt
          exact absurd hFmt (by simp)
        simp only [Option.getD_some]
        rw [hflen]
        constructor
        · rcases padded with _ | ⟨x, xs⟩
          · exact absurd rfl hpne
          · simp
        · exact hle

/-- C10 witness: the theorem applied at an oversized payload and at the
concrete one-byte payload. -/
theorem makeChunks_domain_spec_witness :
    (255 * 1024 < (List.replicate 261121 0).length ∧
      makeChunks (List.replicate 261121 0) = none) ∧
    (makeChunks [1] ≠ none ∧
      1 ≤ ((makeChunks [1]).getD []).length ∧
        ((makeChunks [1]).getD []).length ≤ 255) := by
  have h1 : makeChunks [1] ≠ none := by
    obtain ⟨padded, hfill, hpne, hplen, hpall, hpflat⟩ :=
      sliceInto_fillLast 1024 (by norm_num) 1 [1] (by simp) (by simp)
    rw [makeChunks, hfill]
    intro hcon
    rw [formatChunks_none padded 0] at hcon
    rw [hplen] at hcon
    norm_num at hcon
  have hbig : 255 * 1024 < (List.replicate 261121 (0 : Nat)).length := by
    rw [List.length_replicate]
    norm_num
  exact ⟨⟨hbig, makeChunks_domain_spec.2.1 _ hbig⟩, h1,
    makeChunks_domain_spec.2.2 [1] h1⟩

/-! ## parseChunks (conn2m.py, NaviConnection.parseChunks) -/

/-- The end-of-chunk padding test of `parseChunks`:
`len(l) <= pointLen and set(l) == set([0xff])` — the slice is no longer
than a record, non-empty, and consists of 0xff bytes only. -/
def isPadLine (pointLen : Nat) (l : List Nat) : Bool :=
  decide (l.length ≤ pointLen) && !l.isEmpty && l.all (fun b => b == 0xff)

/-- The `for l in lines` loop of `parseChunks`: keep slices until the
first padding slice, which `break`s and discards the rest of the chunk. -/
def takeUntilPad (pointLen : Nat) : List (List Nat) → List (List Nat)
  | [] => []
  | l :: ls =>
    if isPadLine pointLen l then [] else l :: takeUntilPad pointLen ls

/-- One iteration of the `for chunk in chunks` loop of `parseChunks`:
when the last emitted line is incomplete, it is completed from the front
of the chunk (`numOfStripBytes` bytes), then the remaining chunk is
sliced and the slices are appended up to the first padding slice. -/
def parseChunksStep (pointLen : Nat) (pointLines : List (List Nat))
    (chunk : List Nat) : List (List Nat) :=
  match pointLines.getLast? with
  | some last =>
    if last.length ≠ pointLen then
      pointLines.dropLast ++ [last ++ chunk.take (pointLen - last.length)] ++
        takeUntilPad pointLen
          (sliceInto pointLen (chunk.drop (pointLen - last.length)))
    else
      pointLines ++ takeUntilPad pointLen (sliceInto pointLen chunk)
  | none => pointLines ++ takeUntilPad pointLen (sliceInto pointLen chunk)

/-- `NaviConnection.parseChunks`: reassemble the chunk payloads and cut
them into records of `pointLen` bytes each. -/
def parseChunks (chunks : List (List Nat)) (pointLen : Nat) :
    List (List Nat) :=
  chunks.foldl (parseChunksStep pointLen) []

/-- C2 counterexample: with record length 2, the payload stream
0xff, 7, 8 delivered as one chunk emits the records [0xff,7] and [8] —
the second is shorter than the record length and is not padding — while
the same stream split as [0xff] ++ [7,8] drops the 0xff byte (the lone
fragment looks like padding) and emits [7,8], so a record straddling the
chunk boundary is not reassembled to the single-chunk result. -/
theorem parseChunks_counterexample :
    parseChunks [[0xff], [7, 8]] 2 ≠ parseChunks [[0xff, 7, 8]] 2 ∧
      parseChunks [[0xff, 7, 8]] 2 = [[0xff, 7], [8]] ∧
      parseChunks [[0xff], [7, 8]] 2 = [[7, 8]] := by
  refine ⟨?_, by decide, by decide⟩
  decide

theorem isPadLine_of_ff (p : Nat) (l : List Nat) (h1 : l ≠ [])
    (h2 : ∀ b ∈ l, b = 0xff) (h3 : l.length ≤ p) :
    isPadLine p l = true := by
  rw [isPadLine]
  simp only [Bool.and_eq_true, decide_eq_true_eq, Bool.not_eq_eq_eq_not,
    Bool.not_false, List.all_eq_true]
  refine ⟨⟨h3, ?_⟩, ?_⟩
  · rcases l with _ | ⟨x, xs⟩
    · exact absurd rfl h1
    · rfl
  · intro b hb
    simp [h2 b hb]

theorem isPadLine_of_head (p : Nat) (l : List Nat)
    (h : ∀ b ∈ l.head?, b ≠ 0xff) :
    isPadLine p l = false := by
  rcases l with _ | ⟨x, xs⟩
  · simp [isPadLine]
  · rw [isPadLine]
    have hx : x ≠ 0xff := h x (by simp)
    simp [hx]

theorem isPadLine_head_neg (p : Nat) (l : List Nat)
    (h : ∀ b ∈ l.head?, b ≠ 0xff) : ¬ (isPadLine p l = true) := by
  rw [isPadLine_of_head p l h]
  simp

/-- Split an equation between concatenations at the boundary of the
shorter left part. -/
theorem prefix_split (a b c d : List Nat) (h : a ++ b = c ++ d)
    (hle : c.length ≤ a.length) :
    c = a.take c.length ∧ d = a.drop c.length ++ b := by
  constructor
  · have h1 : a.take c.length = (a ++ b).take c.length :=
      (List.take_append_of_le_length hle).symm
    rw [h, List.take_append_of_le_length le_rfl, List.take_length] at h1
    exact h1.symm
  · have h1 : a.drop c.length ++ b = (a ++ b).drop c.length :=
      (List.drop_append_of_le_length hle).symm
    rw [h, List.drop_append_of_le_length le_rfl, List.drop_length,
      List.nil_append] at h1
    exact h1.symm

/-- Core reassembly lemma: slicing one chunk taken from a
record-aligned position of a well-formed stream emits exactly the full
records the chunk covers, plus possibly the leading fragment of the next
record; a chunk reaching into the trailing padding emits the remaining
records and drops the padding. -/
theorem takeUntilPad_sliceInto_aligned (p : Nat) (hp : 0 < p) :
    ∀ (rs : List (List Nat)) (pad c rem : List Nat),
      (∀ r ∈ rs, r.length = p) →
      (∀ r ∈ rs, ∀ b ∈ r.head?, b ≠ 0xff) →
      (∀ b ∈ pad, b = 0xff) → pad.length ≤ p →
      rs.flatten ++ pad = c ++ rem →
      (∃ q, q ≤ rs.length ∧
        takeUntilPad p (sliceInto p c) = rs.take q ∧
        rem = (rs.drop q).flatten ++ pad) ∨
      (∃ q m, q < rs.length ∧ 0 < m ∧ m < p ∧
        takeUntilPad p (sliceInto p c) = rs.take q ++ [(rs.getD q []).take m] ∧
        rem = (rs.getD q []).drop m ++ (rs.drop (q + 1)).flatten ++ pad) ∨
      (takeUntilPad p (sliceInto p c) = rs ∧ (∀ b ∈ rem, b = 0xff) ∧
        rem.length ≤ p) := by
  intro rs
  induction rs with
  | nil =>
    intro pad c rem _ _ hpadff hpadlen hstream
    simp only [List.flatten_nil, List.nil_append] at hstream
    have hcff : ∀ b ∈ c, b = 0xff := fun b hb =>
      hpadff b (hstream ▸ List.mem_append_left rem hb)
    have hremff : ∀ b ∈ rem, b = 0xff := fun b hb =>
      hpadff b (hstream ▸ List.mem_append_right c hb)
    have hlen := congrArg List.length hstream
    simp only [List.length_append] at hlen
    refine Or.inr (Or.inr ⟨?_, hremff, by omega⟩)
    rcases hc : c with _ | ⟨x, xs⟩
    · rfl
    · rw [← hc]
      rw [sliceInto_short p c (by rw [hc]; simp) (by omega)]
      rw [takeUntilPad, if_pos]
      exact isPadLine_of_ff p c (by rw [hc]; simp) hcff (by omega)
  | cons r rs2 ih =>
    intro pad c rem hrec hhead hpadff hpadlen hstream
    have hrlen : r.length = p := hrec r (by simp)
    have hrne : r ≠ [] := by
      intro hcon
      rw [hcon] at hrlen
      simp at hrlen
      omega
    rw [List.flatten_cons, List.append_assoc] at hstream
    rcases hc0 : c with _ | ⟨x, xs⟩
    · subst hc0
      refine Or.inl ⟨0, by simp, rfl, ?_⟩
      simp only [List.nil_append] at hstream
      rw [List.drop_zero, ← hstream, List.flatten_cons, List.append_assoc]
    · rw [← hc0]
      have hcne : c ≠ [] := by rw [hc0]; simp
      have hclpos : 0 < c.length := by rw [hc0]; simp
      rcases lt_or_le c.length p with hlt | hge
      · -- the chunk ends inside the first record: a proper fragment
        obtain ⟨hcpre, hrem⟩ := prefix_split r (rs2.flatten ++ pad) c rem
          hstream (by omega)
        have hch : c.head? = r.head? := by
          rw [hcpre]
          rcases r with _ | ⟨y, ys⟩
          · exact absurd rfl hrne
          · rcases hcl : c.length with _ | k
            · omega
            · rw [List.take_succ_cons]
              rfl
        refine Or.inr (Or.inl ⟨0, c.length, by simp, hclpos, hlt, ?_, ?_⟩)
        · rw [sliceInto_short p c hcne (by omega)]
          rw [takeUntilPad,
            if_neg (isPadLine_head_neg p c
              (by rw [hch]; exact hhead r (by simp))), takeUntilPad]
          simp only [List.take_zero, List.nil_append, List.getD_cons_zero]
          rw [← hcpre]
        · rw [hrem, List.getD_cons_zero, List.drop_succ_cons, List.drop_zero]
          rw [List.append_assoc]
      · -- the chunk covers the whole first record
        obtain ⟨hcpre, hY⟩ := prefix_split c rem r (rs2.flatten ++ pad)
          hstream.symm (by omega)
        rw [hrlen] at hcpre hY
        have hcsplit : c = r ++ c.drop p := by
          conv_lhs => rw [← List.take_append_drop p c]
          rw [← hcpre]
        rw [hcsplit, sliceInto_full p r (c.drop p) hp hrlen]
        rw [takeUntilPad, if_neg (isPadLine_head_neg p r (hhead r (by simp)))]
        rcases ih pad (c.drop p) rem
          (fun z hz => hrec z (List.mem_cons_of_mem r hz))
          (fun z hz => hhead z (List.mem_cons_of_mem r hz))
          hpadff hpadlen hY with
          ⟨q, hq, heq, hrem⟩ | ⟨q, m, hq, hm1, hm2, heq, hrem⟩ | ⟨heq, hremff, hremlen⟩
        · refine Or.inl ⟨q + 1, by simp; omega, ?_, ?_⟩
          · rw [heq, List.take_succ_cons]
          · rw [hrem, List.drop_succ_cons]
        · refine Or.inr (Or.inl ⟨q + 1, m, by simp; omega, hm1, hm2, ?_, ?_⟩)
          · rw [heq, List.take_succ_cons, List.getD_cons_succ, List.cons_append]
          · rw [hrem, List.getD_cons_succ, List.drop_succ_cons]
        · refine Or.inr (Or.inr ⟨by rw [heq], hremff, hremlen⟩)

theorem getLast?_mem_self {α : Type} {l : List α} {a : α}
    (h : a ∈ l.getLast?) : a ∈ l := by
  obtain ⟨hne, heq⟩ := List.mem_getLast?_eq_getLast h
  rw [heq]
  exact List.getLast_mem hne

theorem getD_drop_eq (l : List (List Nat)) (k q : Nat) :
    (l.drop k).getD q [] = l.getD (k + q) [] := by
  rw [List.getD_eq_getElem?_getD, List.getD_eq_getElem?_getD,
    List.getElem?_drop]

theorem take_succ_getD (l : List (List Nat)) (q : Nat) (hq : q < l.length) :
    l.take (q + 1) = l.take q ++ [l.getD q []] := by
  rw [List.take_succ]
  congr 1
  rw [List.getElem?_eq_getElem hq]
  rw [List.getD_eq_getElem?_getD, List.getElem?_eq_getElem hq]
  rfl

/-- Loop invariant of `parseChunks` on a well-formed stream: the lines
emitted so far are a prefix of the expected records, possibly carrying
the leading fragment of the next record, or all the records with only
0xff padding left in the stream. -/
def ParseInv (p : Nat) (records : List (List Nat)) (padding : List Nat)
    (pointLines : List (List Nat)) (rem : List Nat) : Prop :=
  (∃ q, q ≤ records.length ∧ pointLines = records.take q ∧
    rem = (records.drop q).flatten ++ padding) ∨
  (∃ q m, q < records.length ∧ 0 < m ∧ m < p ∧
    pointLines = records.take q ++ [(records.getD q []).take m] ∧
    rem = (records.getD q []).drop m ++
      (records.drop (q + 1)).flatten ++ padding) ∨
  (pointLines = records ∧ (∀ b ∈ rem, b = 0xff) ∧ rem.length ≤ p)

/-- When every line emitted so far is complete, `parseChunksStep` just
appends the new slices (both the empty case and the
`len(pointLines[-1]) == pointLen` case of the source). -/
theorem parseChunksStep_complete (p : Nat) (pointLines : List (List Nat))
    (c : List Nat) (h : ∀ last ∈ pointLines.getLast?, last.length = p) :
    parseChunksStep p pointLines c =
      pointLines ++ takeUntilPad p (sliceInto p c) := by
  rw [parseChunksStep]
  rcases hL : pointLines.getLast? with _ | last
  · rfl
  · have hlen : last.length = p := h last (by rw [hL]; rfl)
    show (if last.length ≠ p then
        pointLines.dropLast ++ [last ++ List.take (p - last.length) c] ++
          takeUntilPad p (sliceInto p (List.drop (p - last.length) c))
      else pointLines ++ takeUntilPad p (sliceInto p c)) =
      pointLines ++ takeUntilPad p (sliceInto p c)
    rw [if_neg (by simp [hlen])]

/-- Lifting of the aligned-chunk lemma to the loop invariant: processing
a chunk from a record-aligned position re-establishes the invariant. -/
theorem parseInv_of_aligned (p : Nat) (records : List (List Nat))
    (padding : List Nat) (hp : 0 < p)
    (hrec : ∀ r ∈ records, r.length = p)
    (hhead : ∀ r ∈ records, ∀ b ∈ r.head?, b ≠ 0xff)
    (hpadff : ∀ b ∈ padding, b = 0xff) (hpadlen : padding.length ≤ p)
    (k : Nat) (c rem : List Nat) (hk : k ≤ records.length)
    (hstream : (records.drop k).flatten ++ padding = c ++ rem) :
    ParseInv p records padding
      (records.take k ++ takeUntilPad p (sliceInto p c)) rem := by
  rcases takeUntilPad_sliceInto_aligned p hp (records.drop k) padding c rem
    (fun r hr => hrec r (List.drop_subset k records hr))
    (fun r hr => hhead r (List.drop_subset k records hr))
    hpadff hpadlen hstream with
    ⟨q, hq, heq, hrem⟩ | ⟨q, m, hq, hm1, hm2, heq, hrem⟩ | ⟨heq, hremff, hremlen⟩
  · refine Or.inl ⟨k + q, ?_, ?_, ?_⟩
    · simp only [List.length_drop] at hq
      omega
    · rw [heq, ← List.take_add]
    · rw [hrem, List.drop_drop]
  · refine Or.inr (Or.inl ⟨k + q, m, ?_, hm1, hm2, ?_, ?_⟩)
    · simp only [List.length_drop] at hq
      omega
    · rw [heq, ← List.append_assoc, ← List.take_add, getD_drop_eq]
    · rw [hrem, getD_drop_eq, List.drop_drop, ← Nat.add_assoc]
  · refine Or.inr (Or.inr ⟨?_, hremff, hremlen⟩)
    rw [heq, List.take_append_drop]

theorem getD_mem_of_lt (l : List (List Nat)) (q : Nat) (h : q < l.length) :
    l.getD q [] ∈ l := by
  rw [List.getD_eq_getElem?_getD, List.getElem?_eq_getElem h]
  exact List.getElem_mem h

/-- The carry branch of `parseChunksStep` (`if pointLines and
len(pointLines[-1]) != pointLen`). -/
theorem parseChunksStep_carry (p : Nat) (front : List (List Nat))
    (frag c : List Nat) (h : frag.length ≠ p) :
    parseChunksStep p (front ++ [frag]) c =
      front ++ [frag ++ c.take (p - frag.length)] ++
        takeUntilPad p (sliceInto p (c.drop (p - frag.length))) := by
  rw [parseChunksStep, List.getLast?_concat]
  show (if frag.length ≠ p then
      (front ++ [frag]).dropLast ++ [frag ++ List.take (p - frag.length) c] ++
        takeUntilPad p (sliceInto p (List.drop (p - frag.length) c))
    else (front ++ [frag]) ++ takeUntilPad p (sliceInto p c)) =
    front ++ [frag ++ List.take (p - frag.length) c] ++
      takeUntilPad p (sliceInto p (List.drop (p - frag.length) c))
  rw [if_pos h, List.dropLast_concat]

theorem sliceInto_nil_eq (p : Nat) : sliceInto p [] = [] := rfl

theorem takeUntilPad_nil (p : Nat) : takeUntilPad p [] = [] := rfl

/-- Invariant preservation of the per-chunk body of `parseChunks`. -/
theorem parseChunksStep_inv (p : Nat) (records : List (List Nat))
    (padding : List Nat) (hp : 0 < p)
    (hrec : ∀ r ∈ records, r.length = p)
    (hhead : ∀ r ∈ records, ∀ b ∈ r.head?, b ≠ 0xff)
    (hpadff : ∀ b ∈ padding, b = 0xff) (hpadlen : padding.length ≤ p)
    (pointLines : List (List Nat)) (c rem : List Nat)
    (hinv : ParseInv p records padding pointLines (c ++ rem)) :
    ParseInv p records padding (parseChunksStep p pointLines c) rem := by
  rcases hinv with ⟨q, hq, hpl, hrem⟩ |
    ⟨q, m, hq, hm1, hm2, hpl, hrem⟩ | ⟨hpl, hremff, hremlen⟩
  · -- every emitted line complete, at an aligned position
    subst hpl
    rw [parseChunksStep_complete p _ c (fun last hlast =>
      hrec last (List.take_subset q records (getLast?_mem_self hlast)))]
    exact parseInv_of_aligned p records padding hp hrec hhead hpadff hpadlen
      q c rem hq hrem.symm
  · -- the last emitted line is a fragment: the carry branch completes it
    subst hpl
    have hrmem : records.getD q [] ∈ records := getD_mem_of_lt records q hq
    have hrlen : (records.getD q []).length = p := hrec _ hrmem
    have hfraglen : ((records.getD q []).take m).length = m := by
      rw [List.length_take]
      omega
    rw [parseChunksStep_carry p (records.take q) ((records.getD q []).take m) c
      (by rw [hfraglen]; omega)]
    rw [hfraglen]
    rw [List.append_assoc] at hrem
    have hDlen : ((records.getD q []).drop m).length = p - m := by
      rw [List.length_drop, hrlen]
    rcases lt_or_le c.length (p - m) with hlt | hge
    · -- the whole chunk is swallowed by the carry; fragment grows
      obtain ⟨hcpre, hremx⟩ := prefix_split ((records.getD q []).drop m)
        ((records.drop (q + 1)).flatten ++ padding) c rem hrem.symm
        (by omega)
      rw [List.take_of_length_le (Nat.le_of_lt hlt),
        List.drop_of_length_le (Nat.le_of_lt hlt)]
      rw [sliceInto_nil_eq, takeUntilPad_nil, List.append_nil]
      refine Or.inr (Or.inl ⟨q, m + c.length, hq, by omega, by omega, ?_, ?_⟩)
      · have hgrow : (records.getD q []).take m ++ c =
            (records.getD q []).take (m + c.length) := by
          rw [List.take_add]
          congr 1
        rw [hgrow]
      · rw [hremx, List.drop_drop, ← List.append_assoc]
    · -- the carry completes the fragment to a full record
      obtain ⟨hcpre, hremx⟩ := prefix_split c rem ((records.getD q []).drop m)
        ((records.drop (q + 1)).flatten ++ padding) hrem (by omega)
      rw [hDlen] at hcpre hremx
      have hcomplete : (records.getD q []).take m ++ c.take (p - m) =
          records.getD q [] := by
        rw [← hcpre, List.take_append_drop]
      rw [hcomplete]
      have htake : records.take q ++ [records.getD q []] = records.take (q + 1) :=
        (take_succ_getD records q hq).symm
      rw [htake]
      exact parseInv_of_aligned p records padding hp hrec hhead hpadff hpadlen
        (q + 1) (c.drop (p - m)) rem (by omega) hremx
  · -- all records emitted, only padding in the stream
    rw [hpl]
    rw [parseChunksStep_complete p records c (fun last hlast =>
      hrec last (getLast?_mem_self hlast))]
    have hlen := List.length_append c rem
    have hcff : ∀ b ∈ c, b = 0xff := fun b hb =>
      hremff b (List.mem_append_left rem hb)
    have hremff2 : ∀ b ∈ rem, b = 0xff := fun b hb =>
      hremff b (List.mem_append_right c hb)
    have hclen : c.length ≤ p := by omega
    refine Or.inr (Or.inr ⟨?_, hremff2, by omega⟩)
    rcases hc0 : c with _ | ⟨x, xs⟩
    · rw [sliceInto_nil_eq, takeUntilPad_nil, List.append_nil]
    · rw [← hc0, sliceInto_short p c (by rw [hc0]; simp) hclen]
      rw [takeUntilPad, if_pos (isPadLine_of_ff p c (by rw [hc0]; simp) hcff hclen)]
      rw [List.append_nil]

theorem parseChunks_fold (p : Nat) (records : List (List Nat))
    (padding : List Nat) (hp : 0 < p)
    (hrec : ∀ r ∈ records, r.length = p)
    (hhead : ∀ r ∈ records, ∀ b ∈ r.head?, b ≠ 0xff)
    (hpadff : ∀ b ∈ padding, b = 0xff) (hpadlen : padding.length ≤ p) :
    ∀ (chunks : List (List Nat)) (pointLines : List (List Nat)) (rem : List Nat),
      ParseInv p records padding pointLines (chunks.flatten ++ rem) →
      ParseInv p records padding
        (chunks.foldl (parseChunksStep p) pointLines) rem := by
  intro chunks
  induction chunks with
  | nil => intro pointLines rem h; simpa using h
  | cons c cs ih =>
    intro pointLines rem h
    rw [List.foldl_cons]
    apply ih
    apply parseChunksStep_inv p records padding hp hrec hhead hpadff hpadlen
    rw [List.flatten_cons, List.append_assoc] at h
    exact h

theorem parseInv_final (p : Nat) (records : List (List Nat))
    (padding : List Nat) (hp : 0 < p)
    (hrec : ∀ r ∈ records, r.length = p)
    (pointLines : List (List Nat))
    (h : ParseInv p records padding pointLines []) :
    pointLines = records := by
  rcases h with ⟨q, hq, hpl, hrem⟩ | ⟨q, m, hq, hm1, hm2, hpl, hrem⟩ | ⟨hpl, -, -⟩
  · rcases List.append_eq_nil.mp hrem.symm with ⟨hfl, hpad⟩
    have hdrop : records.drop q = [] := by
      rcases hd : records.drop q with _ | ⟨r, rs⟩
      · rfl
      · have hrmem : r ∈ records := List.drop_subset q records (by rw [hd]; simp)
        have hrl := hrec r hrmem
        rw [hd, List.flatten_cons] at hfl
        rcases List.append_eq_nil.mp hfl with ⟨hr0, -⟩
        rw [hr0] at hrl
        simp at hrl
        omega
    have hlen := congrArg List.length hdrop
    simp only [List.length_drop, List.length_nil] at hlen
    rw [hpl, List.take_of_length_le (by omega)]
  · rcases List.append_eq_nil.mp hrem.symm with ⟨h3, -⟩
    rcases List.append_eq_nil.mp h3 with ⟨h4, -⟩
    have hrl := hrec _ (getD_mem_of_lt records q hq)
    have hlen := congrArg List.length h4
    rw [List.length_drop, hrl] at hlen
    simp at hlen
    omega
  · exact hpl

/-- C2 (amended).  For a chunk-payload stream whose concatenation is a
sequence of records of exactly the fixed record length — none starting
with an 0xff byte — followed by a run of 0xff padding of at most one
record length, `parseChunks` emits exactly those records: a record
straddling a chunk boundary is completed from the front of the next
chunk payload, the trailing padding yields no record, every emitted
record has exactly the record length, and the result equals that of a
single-chunk stream carrying the whole concatenation.  (The frozen
claim asserted this for every stream; outside this shape the code can
emit a short trailing record and can drop a record whose
chunk-boundary fragment is all 0xff — see the counterexample.) -/
theorem parseChunks_wellformed_spec (chunks : List (List Nat)) (p : Nat)
    (records : List (List Nat)) (padding : List Nat) (hp : 0 < p)
    (hjoin : chunks.flatten = records.flatten ++ padding)
    (hrec : ∀ r ∈ records, r.length = p)
    (hhead : ∀ r ∈ records, ∀ b ∈ r.head?, b ≠ 0xff)
    (hpadff : ∀ b ∈ padding, b = 0xff)
    (hpadlen : padding.length ≤ p) :
    parseChunks chunks p = records ∧
      parseChunks chunks p = parseChunks [chunks.flatten] p := by
  have main : ∀ cs : List (List Nat), cs.flatten = records.flatten ++ padding →
      parseChunks cs p = records := by
    intro cs hcs
    apply parseInv_final p records padding hp hrec
    rw [parseChunks]
    apply parseChunks_fold p records padding hp hrec hhead hpadff hpadlen cs [] []
    refine Or.inl ⟨0, by simp, rfl, ?_⟩
    rw [List.append_nil, List.drop_zero, hcs]
  refine ⟨main chunks hjoin, ?_⟩
  rw [main chunks hjoin, main [chunks.flatten] (by simp [hjoin])]

/-- C2 witness: the amended theorem applied to a concrete two-chunk
stream with record length 2, in which the record [3, 4] straddles the
chunk boundary and the final chunk ends in one byte of 0xff padding. -/
theorem parseChunks_wellformed_spec_witness :
    parseChunks [[1, 2, 3], [4, 0xff]] 2 = [[1, 2], [3, 4]] ∧
      parseChunks [[1, 2, 3], [4, 0xff]] 2 =
        parseChunks [[[1, 2, 3], [4, 0xff]].flatten] 2 :=
  parseChunks_wellformed_spec [[1, 2, 3], [4, 0xff]] 2 [[1, 2], [3, 4]] [0xff]
    (by decide) (by decide) (by decide) (by decide) (by decide) (by decide)

/-! ## NMEA command-line checksum (conn2m.py,
NaviConnection.calcNMEAChecksum and checkNMEAChecksum) -/

/-- The ASCII whitespace bytes removed by Python `bytes.strip()`. -/
def isSpaceByte (b : Nat) : Bool :=
  b == 0x20 || b == 0x09 || b == 0x0a || b == 0x0d || b == 0x0b || b == 0x0c

/-- Python `bytes.strip()`: whitespace removed from both ends. -/
def pyStrip (l : List Nat) : List Nat :=
  ((l.dropWhile isSpaceByte).reverse.dropWhile isSpaceByte).reverse

/-- One uppercase hexadecimal digit (`"{:0>2x}".format(...)` followed by
`.upper()`). -/
def hexDigit (v : Nat) : Nat :=
  if v < 10 then 0x30 + v else 0x41 + (v - 10)

/-- The two-uppercase-hex-digit rendering of a byte value. -/
def hexByte (v : Nat) : List Nat := [hexDigit (v / 16), hexDigit (v % 16)]

/-- Python `bytes.upper()` on one byte. -/
def toUpperByte (b : Nat) : Nat :=
  if 0x61 ≤ b ∧ b ≤ 0x7a then b - 32 else b

/-- The checksum loop of `calcNMEAChecksum`: XOR of all bytes. -/
def xorBytes (l : List Nat) : Nat := l.foldl (fun a b => a ^^^ b) 0

/-- `NaviConnection.calcNMEAChecksum`: strip a leading `$` when asked,
XOR the bytes, and render the result as two uppercase hex digits. -/
def calcNMEAChecksum (stripDollar : Bool) (string : List Nat) : List Nat :=
  let string :=
    if stripDollar && (string.head? == some 0x24) then string.tail else string
  hexByte (xorBytes string)

/-- The stripping prelude of `checkNMEAChecksum`: remove end-of-line
whitespace, then a leading `$`. -/
def nmeaStripped (respString : List Nat) : List Nat :=
  let r := pyStrip respString
  if r.head? == some 0x24 then r.tail else r

/-- `NaviConnection.checkNMEAChecksum`: after stripping, require a `*`
three bytes from the end, and compare the trailing two (upper-cased)
hex digits with the recomputed checksum of the message part.  `false`
is the raised `BadChecksum`.  (When fewer than three bytes remain the
source raises `IndexError` on `respString[-3]`; also modelled as
failure.) -/
def checkNMEAChecksum (respString : List Nat) : Bool :=
  if (nmeaStripped respString).getD ((nmeaStripped respString).length - 3) 0
      != 0x2a then
    false
  else
    ((nmeaStripped respString).drop
        ((nmeaStripped respString).length - 2)).map toUpperByte ==
      calcNMEAChecksum false
        ((nmeaStripped respString).take ((nmeaStripped respString).length - 3))

theorem isSpaceByte_hexDigit (v : Nat) : isSpaceByte (hexDigit v) = false := by
  rw [hexDigit, isSpaceByte]
  split <;> simp <;> omega

theorem toUpperByte_hexDigit (v : Nat) (hv : v < 16) :
    toUpperByte (hexDigit v) = hexDigit v := by
  rw [hexDigit, toUpperByte]
  split
  · rw [if_neg]
    omega
  · rw [if_neg]
    omega

theorem hexDigit_inj {a b : Nat} (ha : a < 16) (hb : b < 16)
    (h : hexDigit a = hexDigit b) : a = b := by
  rw [hexDigit, hexDigit] at h
  split at h <;> split at h <;> omega

theorem hexByte_inj {a b : Nat} (ha : a < 256) (hb : b < 256)
    (h : hexByte a = hexByte b) : a = b := by
  rw [hexByte, hexByte] at h
  simp only [List.cons.injEq, and_true] at h
  have h1 := hexDigit_inj (by omega) (by omega) h.1
  have h2 := hexDigit_inj (by omega) (by omega) h.2
  omega

theorem xorBytes_from (l : List Nat) :
    ∀ a, l.foldl (fun x b => x ^^^ b) a = a ^^^ xorBytes l := by
  induction l with
  | nil => intro a; simp [xorBytes]
  | cons x xs ih =>
    intro a
    rw [xorBytes, List.foldl_cons, List.foldl_cons, ih, ih (0 ^^^ x)]
    simp only [Nat.zero_xor]
    rw [Nat.xor_assoc]

theorem xorBytes_append (l1 l2 : List Nat) :
    xorBytes (l1 ++ l2) = xorBytes l1 ^^^ xorBytes l2 := by
  rw [xorBytes, List.foldl_append, xorBytes_from l2, ← xorBytes]

theorem xorBytes_lt (l : List Nat) (h : ∀ b ∈ l, b < 256) :
    xorBytes l < 256 := by
  induction l with
  | nil => rw [xorBytes]; simp
  | cons x xs ih =>
    rw [xorBytes, List.foldl_cons, xorBytes_from]
    simp only [Nat.zero_xor]
    have h1 : x < 256 := h x (by simp)
    have h2 : xorBytes xs < 256 := ih (fun b hb => h b (List.mem_cons_of_mem x hb))
    exact Nat.xor_lt_two_pow (n := 8) h1 h2

theorem xor_left_cancel {a b n : Nat} (h : n ^^^ a = n ^^^ b) : a = b := by
  have h2 := congrArg (fun t => n ^^^ t) h
  simpa [Nat.xor_cancel_left] using h2

theorem xorBytes_set (l : List Nat) (i v : Nat) (hi : i < l.length)
    (hv : v ≠ l.getD i 0) (hb : ∀ b ∈ l, b < 256) (hvb : v < 256) :
    xorBytes (l.set i v) ≠ xorBytes l := by
  have hsplit : l = l.take i ++ l.getD i 0 :: l.drop (i + 1) := by
    rw [List.getD_eq_getElem?_getD, List.getElem?_eq_getElem hi]
    simp only [Option.getD_some]
    rw [← List.drop_eq_getElem_cons hi, List.take_append_drop]
  have hset : l.set i v = l.take i ++ v :: l.drop (i + 1) := by
    rw [List.set_eq_take_cons_drop v hi]
  rw [hset]
  conv_rhs => rw [hsplit]
  rw [xorBytes_append, xorBytes_append]
  intro hcon
  have h2 := xor_left_cancel hcon
  rw [xorBytes, xorBytes, List.foldl_cons, List.foldl_cons] at h2
  rw [xorBytes_from, xorBytes_from] at h2
  simp only [Nat.zero_xor] at h2
  have h3 := xor_left_cancel (a := v) (b := l.getD i 0) (n := xorBytes (l.drop (i + 1)))
  rw [Nat.xor_comm _ v, Nat.xor_comm _ (l.getD i 0)] at h3
  exact hv (h3 h2)

theorem pyStrip_frame (mid2 : List Nat) (w : Nat) :
    pyStrip ((0x24 :: mid2 ++ hexByte w) ++ [0x0d, 0x0a]) =
      0x24 :: mid2 ++ hexByte w := by
  rw [pyStrip]
  have h1 : List.dropWhile isSpaceByte
      ((0x24 :: mid2 ++ hexByte w) ++ [0x0d, 0x0a]) =
      (0x24 :: mid2 ++ hexByte w) ++ [0x0d, 0x0a] :=
    List.dropWhile_cons_of_neg (by decide)
  rw [h1, List.reverse_append]
  have h3 : (0x24 :: mid2 ++ hexByte w).reverse =
      (hexByte w).reverse ++ (0x24 :: mid2).reverse := List.reverse_append _ _
  have h2 : ([0x0d, 0x0a] : List Nat).reverse = [0x0a, 0x0d] := rfl
  rw [h2, h3]
  have h4 : List.dropWhile isSpaceByte
      (([0x0a, 0x0d] : List Nat) ++
        ((hexByte w).reverse ++ (0x24 :: mid2).reverse)) =
      List.dropWhile isSpaceByte
        ((hexByte w).reverse ++ (0x24 :: mid2).reverse) := by
    show List.dropWhile isSpaceByte
        (0x0a :: 0x0d :: ((hexByte w).reverse ++ (0x24 :: mid2).reverse)) = _
    rw [List.dropWhile_cons_of_pos (by decide),
      List.dropWhile_cons_of_pos (by decide)]
  rw [h4]
  have h5 : List.dropWhile isSpaceByte
      ((hexByte w).reverse ++ (0x24 :: mid2).reverse) =
      (hexByte w).reverse ++ (0x24 :: mid2).reverse := by
    show List.dropWhile isSpaceByte
        (hexDigit (w % 16) :: hexDigit (w / 16) :: (0x24 :: mid2).reverse) = _
    rw [List.dropWhile_cons_of_neg (by simp [isSpaceByte_hexDigit])]
    rfl
  rw [h5, ← List.reverse_append, List.reverse_reverse]

theorem nmeaStripped_frame (mid2 : List Nat) (w : Nat) :
    nmeaStripped ((0x24 :: mid2 ++ hexByte w) ++ [0x0d, 0x0a]) =
      mid2 ++ hexByte w := by
  rw [nmeaStripped, pyStrip_frame]
  show (if (0x24 :: (mid2 ++ hexByte w) : List Nat).head? == some 0x24 then
      (0x24 :: (mid2 ++ hexByte w) : List Nat).tail
    else 0x24 :: (mid2 ++ hexByte w)) = mid2 ++ hexByte w
  simp

/-- Evaluation of `checkNMEAChecksum` on a framed line
`$<mid>*<HH>\r\n` whose stored checksum renders the value `w`: the check
reduces to comparing the stored digits with the recomputed digits. -/
theorem checkNMEA_eval (mid : List Nat) (w : Nat) (hw : w < 256) :
    checkNMEAChecksum ((0x24 :: (mid ++ [0x2a]) ++ hexByte w) ++ [0x0d, 0x0a]) =
      (hexByte w == hexByte (xorBytes mid)) := by
  rw [checkNMEAChecksum, nmeaStripped_frame]
  have hlen : ((mid ++ [0x2a]) ++ hexByte w).length = mid.length + 3 := by
    simp [hexByte]
  rw [hlen]
  have hsub3 : mid.length + 3 - 3 = mid.length := by omega
  have hsub2 : mid.length + 3 - 2 = mid.length + 1 := by omega
  rw [hsub3, hsub2]
  have hstar : ((mid ++ [0x2a]) ++ hexByte w).getD mid.length 0 = 0x2a := by
    rw [List.getD_append _ _ _ _ (by simp)]
    rw [List.getD_append_right _ _ _ _ (by simp)]
    simp
  rw [hstar]
  simp only [bne_self_eq_false, Bool.false_eq_true, if_false]
  have hmsg : ((mid ++ [0x2a]) ++ hexByte w).take mid.length = mid := by
    rw [List.take_append_of_le_length (by simp)]
    rw [List.take_append_of_le_length (by simp)]
    exact List.take_length mid
  have hcks : ((mid ++ [0x2a]) ++ hexByte w).drop (mid.length + 1) = hexByte w := by
    have h6 : mid.length + 1 = (mid ++ [0x2a]).length := by simp
    rw [h6, List.drop_left]
  rw [hmsg, hcks]
  have hup : (hexByte w).map toUpperByte = hexByte w := by
    rw [hexByte]
    simp only [List.map_cons, List.map_nil]
    rw [toUpperByte_hexDigit _ (by omega), toUpperByte_hexDigit _ (by omega)]
  rw [hup, calcNMEAChecksum]
  simp

/-- The command-line part of the checksum-corruption property: a
well-formed checksummed line validates, and changing any single byte of
the checksum-covered body (between `$` and `*`) to a different value
makes `checkNMEAChecksum` fail. -/
theorem checkNMEA_corrupt (body : List Nat) (hbody : ∀ b ∈ body, b < 256) :
    checkNMEAChecksum
      ((0x24 :: (body ++ [0x2a]) ++ hexByte (xorBytes body)) ++
        [0x0d, 0x0a]) = true ∧
    ∀ i v, i < body.length → v < 256 → v ≠ body.getD i 0 →
      checkNMEAChecksum
        ((0x24 :: (body.set i v ++ [0x2a]) ++ hexByte (xorBytes body)) ++
          [0x0d, 0x0a]) = false := by
  constructor
  · rw [checkNMEA_eval body (xorBytes body) (xorBytes_lt body hbody)]
    simp
  · intro i v hi hv hne
    rw [checkNMEA_eval (body.set i v) (xorBytes body) (xorBytes_lt body hbody)]
    have hxne : xorBytes (body.set i v) ≠ xorBytes body :=
      xorBytes_set body i v hi hne hbody hv
    have hsetb : ∀ b ∈ body.set i v, b < 256 := by
      intro b hb
      rcases List.mem_or_eq_of_mem_set hb with h | h
      · exact hbody b h
      · rw [h]; exact hv
    simp only [beq_eq_false_iff_ne, ne_eq]
    intro hcon
    exact hxne (hexByte_inj (xorBytes_lt body hbody) (xorBytes_lt _ hsetb) hcon).symm

/-! ## CRC-16/XMODEM (conn2m.py, NaviConnection.calcCrcChecksum and
checkCrcChecksum)

`calcCrcChecksum` delegates to `crcmod.predefined.PredefinedCrc("xmodem")`:
polynomial 0x11021, initial value 0, no reflection, no final XOR;
`digest()` renders the 16-bit register as two big-endian bytes.  The
table-driven crcmod computation is embedded as the equivalent MSB-first
bitwise algorithm. -/

/-- One MSB-first shift of the 16-bit CRC register: shift left, and on
carry-out XOR with the polynomial remainder 0x1021. -/
def crcShift (c : Nat) : Nat :=
  if c < 32768 then c * 2 else (c * 2 - 65536) ^^^ 0x1021

/-- Fold one message byte into the CRC register (XOR into the top byte,
then eight register shifts). -/
def crcByte (c b : Nat) : Nat := crcShift^[8] (c ^^^ b * 256)

/-- The CRC-16/XMODEM register value of a byte string. -/
def crcBytes (l : List Nat) : Nat := l.foldl crcByte 0

/-- `digest()`: the register as two big-endian bytes. -/
def crcDigest (l : List Nat) : List Nat :=
  [crcBytes l / 256 % 256, crcBytes l % 256]

/-- `NaviConnection.checkCrcChecksum`: recompute and compare; `false`
is the raised `BadChecksum`. -/
def checkCrcChecksum (string checksum : List Nat) : Bool :=
  crcDigest string == checksum

theorem xor_right_cancel_nat {a b n : Nat} (h : a ^^^ n = b ^^^ n) : a = b := by
  have h2 := congrArg (fun t => t ^^^ n) h
  simpa [Nat.xor_cancel_right] using h2

theorem crcShift_lt {c : Nat} (h : c < 65536) : crcShift c < 65536 := by
  rw [crcShift]
  split
  · omega
  · exact Nat.xor_lt_two_pow (n := 16) (by omega) (by norm_num)

theorem crcShift_inj {a b : Nat} (ha : a < 65536) (hb : b < 65536)
    (h : crcShift a = crcShift b) : a = b := by
  rw [crcShift, crcShift] at h
  split at h <;> split at h
  · omega
  · exfalso
    have h0 := congrArg (fun t => t.testBit 0) h
    simp only [Nat.testBit_xor] at h0
    simp only [Nat.testBit_zero] at h0
    have e1 : a * 2 % 2 = 0 := by omega
    have e2 : (b * 2 - 65536) % 2 = 0 := by omega
    rw [e1, e2] at h0
    simp at h0
  · exfalso
    have h0 := congrArg (fun t => t.testBit 0) h
    simp only [Nat.testBit_xor] at h0
    simp only [Nat.testBit_zero] at h0
    have e1 : b * 2 % 2 = 0 := by omega
    have e2 : (a * 2 - 65536) % 2 = 0 := by omega
    rw [e1, e2] at h0
    simp at h0
  · have h2 := xor_right_cancel_nat h
    omega

theorem crcShiftIter_lt (n : Nat) : ∀ c, c < 65536 → crcShift^[n] c < 65536 := by
  induction n with
  | zero => intro c hc; simpa using hc
  | succ k ih =>
    intro c hc
    rw [Function.iterate_succ_apply]
    exact ih (crcShift c) (crcShift_lt hc)

theorem crcShiftIter_inj (n : Nat) :
    ∀ a b, a < 65536 → b < 65536 → crcShift^[n] a = crcShift^[n] b → a = b := by
  induction n with
  | zero => intro a b _ _ h; simpa using h
  | succ k ih =>
    intro a b ha hb h
    rw [Function.iterate_succ_apply, Function.iterate_succ_apply] at h
    exact crcShift_inj ha hb (ih _ _ (crcShift_lt ha) (crcShift_lt hb) h)

theorem crcByte_lt {c b : Nat} (hc : c < 65536) (hb : b < 256) :
    crcByte c b < 65536 := by
  rw [crcByte]
  exact crcShiftIter_lt 8 _ (Nat.xor_lt_two_pow (n := 16) hc (by omega))

theorem crcByte_state_inj {c1 c2 b : Nat} (h1 : c1 < 65536) (h2 : c2 < 65536)
    (hb : b < 256) (hne : c1 ≠ c2) : crcByte c1 b ≠ crcByte c2 b := by
  intro hcon
  rw [crcByte, crcByte] at hcon
  have h3 := crcShiftIter_inj 8 _ _
    (Nat.xor_lt_two_pow (n := 16) h1 (by omega))
    (Nat.xor_lt_two_pow (n := 16) h2 (by omega)) hcon
  exact hne (xor_right_cancel_nat h3)

theorem crcByte_byte_inj {c b1 b2 : Nat} (hc : c < 65536) (h1 : b1 < 256)
    (h2 : b2 < 256) (hne : b1 ≠ b2) : crcByte c b1 ≠ crcByte c b2 := by
  intro hcon
  rw [crcByte, crcByte] at hcon
  have h3 := crcShiftIter_inj 8 _ _
    (Nat.xor_lt_two_pow (n := 16) hc (by omega))
    (Nat.xor_lt_two_pow (n := 16) hc (by omega)) hcon
  have h4 := xor_left_cancel h3
  omega

theorem crcFold_lt (l : List Nat) :
    ∀ c, c < 65536 → (∀ b ∈ l, b < 256) → l.foldl crcByte c < 65536 := by
  induction l with
  | nil => intro c hc _; simpa using hc
  | cons x xs ih =>
    intro c hc hb
    rw [List.foldl_cons]
    exact ih _ (crcByte_lt hc (hb x (by simp)))
      (fun b h => hb b (List.mem_cons_of_mem x h))

theorem crcFold_inj (l : List Nat) :
    ∀ c1 c2, c1 < 65536 → c2 < 65536 → (∀ b ∈ l, b < 256) → c1 ≠ c2 →
      l.foldl crcByte c1 ≠ l.foldl crcByte c2 := by
  induction l with
  | nil => intro c1 c2 _ _ _ hne; simpa using hne
  | cons x xs ih =>
    intro c1 c2 h1 h2 hb hne
    rw [List.foldl_cons, List.foldl_cons]
    exact ih _ _ (crcByte_lt h1 (hb x (by simp))) (crcByte_lt h2 (hb x (by simp)))
      (fun b h => hb b (List.mem_cons_of_mem x h))
      (crcByte_state_inj h1 h2 (hb x (by simp)) hne)

theorem crcFold_set (l : List Nat) :
    ∀ i c v, i < l.length → c < 65536 → (∀ b ∈ l, b < 256) → v < 256 →
      v ≠ l.getD i 0 →
      (l.set i v).foldl crcByte c ≠ l.foldl crcByte c := by
  induction l with
  | nil => intro i c v hi; simp at hi
  | cons x xs ih =>
    intro i c v hi hc hb hv hne
    rcases i with _ | j
    · rw [List.set_cons_zero, List.foldl_cons, List.foldl_cons]
      rw [List.getD_cons_zero] at hne
      exact crcFold_inj xs _ _ (crcByte_lt hc hv) (crcByte_lt hc (hb x (by simp)))
        (fun b h => hb b (List.mem_cons_of_mem x h))
        (crcByte_byte_inj hc hv (hb x (by simp)) hne)
    · rw [List.set_cons_succ, List.foldl_cons, List.foldl_cons]
      rw [List.getD_cons_succ] at hne
      exact ih j _ v (by simp at hi; omega) (crcByte_lt hc (hb x (by simp)))
        (fun b h => hb b (List.mem_cons_of_mem x h)) hv hne

/-- The chunk-CRC part of the corruption property: the recomputed
digest matches, changing any payload byte changes the digest, and
changing either stored digest byte breaks the comparison — each a
`BadChecksum` failure of `checkCrcChecksum`. -/
theorem checkCrc_corrupt (payload : List Nat) (hb : ∀ b ∈ payload, b < 256) :
    checkCrcChecksum payload (crcDigest payload) = true ∧
    (∀ i v, i < payload.length → v < 256 → v ≠ payload.getD i 0 →
      checkCrcChecksum (payload.set i v) (crcDigest payload) = false) ∧
    (∀ j w, j < 2 → w ≠ (crcDigest payload).getD j 0 →
      checkCrcChecksum payload ((crcDigest payload).set j w) = false) := by
  refine ⟨by rw [checkCrcChecksum]; simp, ?_, ?_⟩
  · intro i v hi hv hne
    have hcrcne : crcBytes (payload.set i v) ≠ crcBytes payload :=
      crcFold_set payload i 0 v hi (by norm_num) hb hv hne
    have hlt1 : crcBytes (payload.set i v) < 65536 := by
      apply crcFold_lt _ 0 (by norm_num)
      intro b hbm
      rcases List.mem_or_eq_of_mem_set hbm with h | h
      · exact hb b h
      · rw [h]; exact hv
    have hlt2 : crcBytes payload < 65536 := crcFold_lt _ 0 (by norm_num) hb
    rw [checkCrcChecksum]
    simp only [beq_eq_false_iff_ne, ne_eq]
    intro hcon
    rw [crcDigest, crcDigest] at hcon
    simp only [List.cons.injEq, and_true] at hcon
    exact hcrcne (by omega)
  · intro j w hj hne
    rw [checkCrcChecksum]
    simp only [beq_eq_false_iff_ne, ne_eq]
    intro hcon
    rcases j with _ | j
    · rw [crcDigest] at hcon hne
      rw [List.set_cons_zero] at hcon
      simp only [List.cons.injEq, and_true] at hcon
      rw [List.getD_cons_zero] at hne
      exact hne hcon.symm
    · have hj1 : j = 0 := by omega
      subst hj1
      rw [crcDigest] at hcon hne
      rw [List.set_cons_succ, List.set_cons_zero] at hcon
      simp only [List.cons.injEq, and_true, true_and] at hcon
      rw [List.getD_cons_succ, List.getD_cons_zero] at hne
      exact hne hcon.symm

/-! ## Route codec (conn2m.py, Route and RoutePoint)

The encode side starts from route points as built by the GPX import
path (`RoutePoint.fromGpxValues`): the name is a string (here a list of
Unicode code points), the symbol an integer code, and lat/lon scaled
integers (degrees times 1e5).  The glyph-bitmap table `charBitmapDict`
is an external data table of 22-byte entries (with the "?" entry as
fallback); it is a parameter `glyph` here, and only the 22-byte length
of its entries matters to any claim. -/

structure RoutePointIn where
  name : List Nat
  symbol : Nat
  lat : Int
  lon : Int
  deriving DecidableEq, Repr

/-- A route point as produced by `RoutePoint.fromBin`: the decoder
stores lat/lon already scaled by 1e-5 (exact rational arithmetic stands
in for the Python float multiplication). -/
structure RoutePointOut where
  name : List Nat
  symbol : Nat
  lat : ℚ
  lon : ℚ
  deriving DecidableEq, Repr

/-- `c.encode("utf-16-le")` of one code point: two little-endian bytes
in the BMP, a four-byte surrogate pair above it.  (Python raises on
lone surrogates, 0xd800-0xdfff; the theorems exclude them.) -/
def encodeUtf16 (c : Nat) : List Nat :=
  if c < 65536 then [c % 256, c / 256]
  else
    [(0xd800 + (c - 65536) / 1024) % 256, (0xd800 + (c - 65536) / 1024) / 256,
     (0xdc00 + (c - 65536) % 1024) % 256, (0xdc00 + (c - 65536) % 1024) / 256]

/-- The chartable half of `Route.makeOutCharTable`: the reserved null
entry, then every character of every point name in first-seen order. -/
def makeOutCharTable (points : List RoutePointIn) : List Nat :=
  points.foldl (fun ct pt =>
    pt.name.foldl (fun ct2 c => if c ∈ ct2 then ct2 else ct2 ++ [c]) ct) [0]

/-- `RoutePoint.toBin`: the 32 little-endian chartable indices of the
name characters padded with zero indices to 64 bytes, 4 bytes symbol
(`pack("<I")`), 4 bytes lat and 4 bytes lon (`pack("<i")`). -/
def RoutePoint.toBin (chartable : List Nat) (p : RoutePointIn) : List Nat :=
  let name := (p.name.map (fun c => le16 (chartable.indexOf c))).flatten
  (name ++ List.replicate (64 - name.length) 0) ++
    le32 p.symbol ++ le32i p.lat ++ le32i p.lon

/-- `Route.toBin`: header (with derived offsets and checksum), point
records, chartable, glyph bitmaps. -/
def Route.toBin (glyph : Nat → List Nat) (points : List RoutePointIn) :
    List Nat :=
  let chartable := makeOutCharTable points
  let pointDataBin := (points.map (RoutePoint.toBin chartable)).flatten
  let charTableBin := (chartable.map encodeUtf16).flatten
  let charBitmapsDataBin := (chartable.map glyph).flatten
  let charTableOffset := 20 + pointDataBin.length
  let charBitmapsDataOffset := charTableOffset + charTableBin.length
  let eofOffset := charBitmapsDataOffset + charBitmapsDataBin.length
  let headerPre := le16 1 ++ le16 points.length ++ le32 charTableOffset ++
    le32 charBitmapsDataOffset ++ le32 eofOffset ++ [0, 0]
  (headerPre ++ le16i (-(headerPre.sum % 65536 : Int))) ++
    pointDataBin ++ charTableBin ++ charBitmapsDataBin

/-- `Route.makeInCharTable` (without the optional char-data file I/O):
chop the chartable section into 2-byte pieces and decode each as a
UTF-16-LE unit.  (For surrogate content Python would pair or reject the
units; the theorems only use non-surrogate tables.) -/
def makeInCharTable (data : List Nat) : List Nat :=
  (sliceInto 2 data).map (fun piece => piece.getD 0 0 + 256 * piece.getD 1 0)

/-- `RoutePoint.fromBin`: the name is rebuilt from the non-zero
chartable indices (`chartable[ind]` raising on a bad index is modelled
as the null character), the symbol is the first two bytes of the symbol
region, and lat/lon are the two signed ints scaled by 1e-5. -/
def RoutePoint.fromBin (chartable : List Nat) (data : List Nat) :
    RoutePointOut :=
  let inds := (List.range 32).map (fun i => rd16 data (2 * i))
  { name := (inds.filter (fun ind => ind != 0)).map
      (fun ind => chartable.getD ind 0),
    symbol := rd16 data 64,
    lat := (asI32 (rd32 data 68) : ℚ) / 100000,
    lon := (asI32 (rd32 data 72) : ℚ) / 100000 }

/-- The result of `Route.parseBin`: header fields, chartable and
points. -/
structure RouteParsed where
  headerStart : Nat
  numOfPoints : Nat
  charTableOffset : Nat
  charBitmapsDataOffset : Nat
  eofOffset : Nat
  chartable : List Nat
  points : List RoutePointOut
  deriving DecidableEq, Repr

/-- `Route.parseBin` (with `dumpRaw` disabled): unpack the 20-byte
header, validate its checksum (`none` is the raised `BadChecksum`),
then slice the point records and decode the chartable. -/
def Route.parseBin (binData : List Nat) : Option RouteParsed :=
  let header := binData.take 20
  let numOfPoints := rd16 header 2
  let charTableOffset := rd32 header 4
  let charBitmapsDataOffset := rd32 header 8
  let eofOffset := rd32 header 12
  if (header.drop 18).take 2 ≠ le16i (-((header.take 18).sum % 65536 : Int)) then
    none
  else
    let pointData := (List.range numOfPoints).map
      (fun i => (((binData.take charTableOffset).drop 20).drop (76 * i)).take 76)
    let chartable :=
      makeInCharTable ((binData.take charBitmapsDataOffset).drop charTableOffset)
    some { headerStart := rd16 header 0, numOfPoints, charTableOffset,
           charBitmapsDataOffset, eofOffset, chartable,
           points := pointData.map (RoutePoint.fromBin chartable) }

theorem sum_set_balance (l : List Nat) (i v : Nat) (hi : i < l.length) :
    (l.set i v).sum + l.getD i 0 = l.sum + v := by
  induction l generalizing i with
  | nil => simp at hi
  | cons x xs ih =>
    rcases i with _ | j
    · simp only [List.set_cons_zero, List.sum_cons, List.getD_cons_zero]
      omega
    · simp only [List.set_cons_succ, List.sum_cons, List.getD_cons_succ]
      have h2 := ih j (by simp at hi; omega)
      omega

theorem sum_bound (l : List Nat) (h : ∀ b ∈ l, b < 256) :
    l.sum ≤ l.length * 255 := by
  induction l with
  | nil => simp
  | cons x xs ih =>
    simp only [List.sum_cons, List.length_cons]
    have h1 : x < 256 := h x (by simp)
    have h2 := ih (fun b hb => h b (List.mem_cons_of_mem x hb))
    have h3 : (xs.length + 1) * 255 = xs.length * 255 + 255 := by ring
    omega

theorem getD_take_eq (l : List Nat) (n i : Nat) (hi : i < n) :
    (l.take n).getD i 0 = l.getD i 0 := by
  rw [List.getD_eq_getElem?_getD, List.getD_eq_getElem?_getD,
    List.getElem?_take, if_pos hi]

theorem getD_drop_eq_nat (l : List Nat) (k q : Nat) :
    (l.drop k).getD q 0 = l.getD (k + q) 0 := by
  rw [List.getD_eq_getElem?_getD, List.getD_eq_getElem?_getD,
    List.getElem?_drop]

theorem set_ne_self (l : List Nat) (j v : Nat) (hj : j < l.length)
    (hne : v ≠ l.getD j 0) : l.set j v ≠ l := by
  intro hcon
  apply hne
  have h2 := congrArg (fun t => t.getD j 0) hcon
  simp only at h2
  rw [List.getD_eq_getElem?_getD, List.getElem?_set_self (by simpa using hj),
    Option.getD_some] at h2
  exact h2

theorem le16i_negmod_inj {s1 s2 : Nat} (h1 : s1 < 65536) (h2 : s2 < 65536)
    (h : le16i (-((s1 : Int) % 65536)) = le16i (-((s2 : Int) % 65536))) :
    s1 = s2 := by
  rw [le16i, le16i] at h
  have h3 := le16_inj (a := ((-((s1 : Int) % 65536)) % 65536).toNat)
    (b := ((-((s2 : Int) % 65536)) % 65536).toNat) (by omega) (by omega) h
  omega

/-- `Route.parseBin` fails exactly when the stored header checksum does
not match the recomputed one. -/
theorem parseBin_none_iff (bin : List Nat) :
    Route.parseBin bin = none ↔
      ((bin.take 20).drop 18).take 2 ≠
        le16i (-((((bin.take 20).take 18).sum : Int) % 65536)) := by
  simp only [Route.parseBin]
  split
  · rename_i h
    simpa using h
  · rename_i h
    simpa using h

/-- The route-header part of the corruption property: on a buffer whose
header checksum validates, changing any one of the twenty header bytes
makes `Route.parseBin` fail with `BadChecksum`. -/
theorem routeHeader_corrupt (bin : List Nat) (hlen : 20 ≤ bin.length)
    (hbytes : ∀ b ∈ bin, b < 256) (hsome : Route.parseBin bin ≠ none) :
    ∀ i v, i < 20 → v < 256 → v ≠ bin.getD i 0 →
      Route.parseBin (bin.set i v) = none := by
  intro i v hi hv hne
  have heq : ((bin.take 20).drop 18).take 2 =
      le16i (-((((bin.take 20).take 18).sum : Int) % 65536)) := by
    by_contra hcon
    exact hsome ((parseBin_none_iff bin).mpr hcon)
  have hHlen : (bin.take 20).length = 20 := by
    rw [List.length_take]
    omega
  have hHbytes : ∀ b ∈ bin.take 20, b < 256 :=
    fun b hb => hbytes b (List.take_subset 20 bin hb)
  have htake20 : (bin.set i v).take 20 = (bin.take 20).set i v := List.set_take
  rw [parseBin_none_iff, htake20]
  have hgetD : bin.getD i 0 = (bin.take 20).getD i 0 := (getD_take_eq bin 20 i hi).symm
  rcases lt_or_le i 18 with hi18 | hi18
  · -- a covered header byte changed: the recomputed checksum moves
    rw [List.drop_set_of_lt v (bin.take 20) hi18]
    rw [heq]
    have htk : ((bin.take 20).set i v).take 18 = ((bin.take 20).take 18).set i v :=
      List.set_take
    rw [htk]
    have hl18 : ((bin.take 20).take 18).length = 18 := by
      rw [List.length_take, hHlen]
      omega
    have hsumbal := sum_set_balance ((bin.take 20).take 18) i v (by omega)
    have hgetD18 : ((bin.take 20).take 18).getD i 0 = (bin.take 20).getD i 0 :=
      getD_take_eq _ 18 i hi18
    have hs1 : ((bin.take 20).take 18).sum < 65536 := by
      have := sum_bound _ (fun b hb => hHbytes b (List.take_subset 18 _ hb))
      rw [hl18] at this
      omega
    have hs2 : (((bin.take 20).take 18).set i v).sum < 65536 := by
      have hbs : ∀ b ∈ ((bin.take 20).take 18).set i v, b < 256 := by
        intro b hb
        rcases List.mem_or_eq_of_mem_set hb with h | h
        · exact hHbytes b (List.take_subset 18 _ h)
        · rw [h]; exact hv
      have := sum_bound _ hbs
      rw [List.length_set, hl18] at this
      omega
    intro hcon
    have hsum_eq := le16i_negmod_inj hs2 hs1 hcon.symm
    rw [hgetD18, ← hgetD] at hsumbal
    omega
  · -- a stored checksum byte changed: the stored value moves
    have htk18 : ((bin.take 20).set i v).take 18 = (bin.take 20).take 18 := by
      rw [List.set_take, List.set_eq_of_length_le]
      rw [List.length_take, hHlen]
      omega
    rw [htk18, ← heq]
    have hdrop : ((bin.take 20).set i v).drop 18 =
        ((bin.take 20).drop 18).set (i - 18) v := by
      rw [List.drop_set]
      rw [if_neg (by omega)]
    rw [hdrop, List.set_take]
    apply set_ne_self
    · rw [List.length_take, List.length_drop, hHlen]
      omega
    · rw [getD_take_eq _ 2 (i - 18) (by omega), getD_drop_eq_nat]
      have h18 : 18 + (i - 18) = i := by omega
      rw [h18, ← hgetD]
      exact hne

/-- C4 (amended): single-byte corruption of a checksum-guarded unit is
detected.  (1) NMEA command lines: a well-formed line validates, and
changing any byte of the checksummed message body (the bytes between the
leading `$` and the `*`) makes `checkNMEAChecksum` fail; (2) chunk
payloads: the CRC-16/XMODEM digest validates, and changing any payload
byte or either digest byte makes `checkCrcChecksum` fail; (3) route
headers: on a buffer accepted by `Route.parseBin`, changing any of the
twenty header bytes makes `Route.parseBin` fail with `BadChecksum`.
The frozen claim's stronger reading — any byte of the whole command
line — is refuted by the counterexample (flipping the leading `$` to
`0x00` still validates). -/
theorem checksum_corrupt_spec :
    (∀ body : List Nat, (∀ b ∈ body, b < 256) →
      checkNMEAChecksum
        ((0x24 :: (body ++ [0x2a]) ++ hexByte (xorBytes body)) ++
          [0x0d, 0x0a]) = true ∧
      ∀ i v, i < body.length → v < 256 → v ≠ body.getD i 0 →
        checkNMEAChecksum
          ((0x24 :: (body.set i v ++ [0x2a]) ++ hexByte (xorBytes body)) ++
            [0x0d, 0x0a]) = false) ∧
    (∀ payload : List Nat, (∀ b ∈ payload, b < 256) →
      checkCrcChecksum payload (crcDigest payload) = true ∧
      (∀ i v, i < payload.length → v < 256 → v ≠ payload.getD i 0 →
        checkCrcChecksum (payload.set i v) (crcDigest payload) = false) ∧
      (∀ j w, j < 2 → w ≠ (crcDigest payload).getD j 0 →
        checkCrcChecksum payload ((crcDigest payload).set j w) = false)) ∧
    (∀ bin : List Nat, 20 ≤ bin.length → (∀ b ∈ bin, b < 256) →
      Route.parseBin bin ≠ none →
      ∀ i v, i < 20 → v < 256 → v ≠ bin.getD i 0 →
        Route.parseBin (bin.set i v) = none) :=
  ⟨checkNMEA_corrupt, checkCrc_corrupt, routeHeader_corrupt⟩

/-- C4 counterexample to the frozen wording: the line `$K*4B\r\n`
validates, and changing its leading `$` byte (a single byte of the
checksum-guarded command line) to `0x00` yields a line that STILL
validates, because stripping no longer removes a `$` and the now-included
`0x00` byte XORs away to the same checksum. -/
theorem checksum_corrupt_counterexample :
    checkNMEAChecksum [0x24, 0x4b, 0x2a, 0x34, 0x42, 0x0d, 0x0a] = true ∧
    ([0x24, 0x4b, 0x2a, 0x34, 0x42, 0x0d, 0x0a] : List Nat).set 0 0x00 =
      [0x00, 0x4b, 0x2a, 0x34, 0x42, 0x0d, 0x0a] ∧
    (0x00 : Nat) ≠ [0x24, 0x4b, 0x2a, 0x34, 0x42, 0x0d, 0x0a].getD 0 0 ∧
    checkNMEAChecksum [0x00, 0x4b, 0x2a, 0x34, 0x42, 0x0d, 0x0a] = true := by
  decide

theorem checksum_corrupt_spec_witness :
    checkNMEAChecksum
      ((0x24 :: (([0x4b] : List Nat) ++ [0x2a]) ++ hexByte (xorBytes [0x4b])) ++
        [0x0d, 0x0a]) = true ∧
    checkNMEAChecksum
      ((0x24 :: (([0x4b] : List Nat).set 0 0x4c ++ [0x2a]) ++
          hexByte (xorBytes [0x4b])) ++ [0x0d, 0x0a]) = false ∧
    checkCrcChecksum [1, 2, 3] (crcDigest [1, 2, 3]) = true ∧
    checkCrcChecksum (([1, 2, 3] : List Nat).set 0 9) (crcDigest [1, 2, 3]) =
      false ∧
    checkCrcChecksum [1, 2, 3] ((crcDigest [1, 2, 3]).set 0 7) = false ∧
    Route.parseBin ((List.replicate 20 0).set 0 1) = none := by
  refine ⟨?_, ?_, ?_, ?_, ?_, ?_⟩
  · exact (checksum_corrupt_spec.1 [0x4b] (by decide)).1
  · exact (checksum_corrupt_spec.1 [0x4b] (by decide)).2 0 0x4c (by decide)
      (by decide) (by decide)
  · exact (checksum_corrupt_spec.2.1 [1, 2, 3] (by decide)).1
  · exact (checksum_corrupt_spec.2.1 [1, 2, 3] (by decide)).2.1 0 9 (by decide)
      (by decide) (by decide)
  · exact (checksum_corrupt_spec.2.1 [1, 2, 3] (by decide)).2.2 0 7 (by decide)
      (by decide)
  · exact checksum_corrupt_spec.2.2 (List.replicate 20 0) (by decide)
      (by decide)
      (by rw [ne_eq, parseBin_none_iff]; decide)
      0 1 (by decide) (by decide) (by decide)

/-! ## Poi.fromBin / Poi.toBin (conn2m.py, class Poi)

Python numbers are either ints or floats; `line[8:16]` decoded with
`struct.unpack("<ii", ...)` gives ints, but the `/1e5` true division in
`fromBin` always produces floats (exact here, since every int32 divided
by `1e5` is representable questions aside, the model uses `ℚ`, which the
binary64 values realise exactly for this range: numerator below `2^31`,
denominator `10^5`, both well below `2^53`). -/

inductive PyNum where
  | int (v : Int)
  | float (q : ℚ)
  deriving DecidableEq, Repr

/-- `time.strptime`/`datetime.strptime` acceptance of the zero-padded
`"%Y-%m-%dT%H:%M:%SZ"` rendering used by `Poi.fromBin`: month 1..12, day
within the month, hour/minute below 24/60, second below 60 (the
`datetime` constructor rejects 60 and 61). -/
def isLeapYear (y : Nat) : Bool :=
  (y % 4 == 0 && y % 100 != 0) || y % 400 == 0

def daysInMonth (y m : Nat) : Nat :=
  if m = 2 then (if isLeapYear y then 29 else 28)
  else if m = 4 ∨ m = 6 ∨ m = 9 ∨ m = 11 then 30
  else 31

def validDateTime (y mo d h mi s : Nat) : Bool :=
  decide (1 ≤ mo ∧ mo ≤ 12 ∧ 1 ≤ d ∧ d ≤ daysInMonth y mo ∧
    h ≤ 23 ∧ mi ≤ 59 ∧ s ≤ 59)

/-- The decoded fields of a `Poi` after `fromBin` (or as set up before
`toBin`): the six local-time fields carried by `self.datetime` /
`self.timeString`, the symbol byte and the coordinates.  Coordinates are
`PyNum` because the source moves them between int (wire) and float
(after `/1e5`) representations. -/
structure Poi where
  year : Nat
  month : Nat
  day : Nat
  hour : Nat
  minute : Nat
  second : Nat
  symbol : Nat
  lat : PyNum
  lon : PyNum
  deriving DecidableEq, Repr

/-- `Poi.fromBin`: decode a 16-byte POI line.  `localize` stands for the
`astimezone(tz=None)` conversion from UTC to the local timezone (the
identity when the environment is UTC); `none` models the exceptions
(`IndexError`/`struct.error` on short input, `ValueError` from
`strptime` on an invalid date). -/
def Poi.fromBin (localize :
      Nat × Nat × Nat × Nat × Nat × Nat → Nat × Nat × Nat × Nat × Nat × Nat)
    (line : List Nat) : Option Poi :=
  if 16 ≤ line.length then
    if validDateTime (1900 + line.getD 0 0) (line.getD 1 0) (line.getD 2 0)
        (line.getD 3 0) (line.getD 4 0) (line.getD 5 0) then
      let t := localize (1900 + line.getD 0 0, line.getD 1 0, line.getD 2 0,
        line.getD 3 0, line.getD 4 0, line.getD 5 0)
      some { year := t.1, month := t.2.1, day := t.2.2.1, hour := t.2.2.2.1,
             minute := t.2.2.2.2.1, second := t.2.2.2.2.2,
             symbol := line.getD 6 0,
             lat := PyNum.float ((asI32 (rd32 line 8) : ℚ) / 100000),
             lon := PyNum.float ((asI32 (rd32 line 12) : ℚ) / 100000) }
    else none
  else none

/-- `Poi.toBin`: re-encode a POI.  `struct.pack("<i", ...)` accepts only
ints in the 32-bit range (a float raises `struct.error`: "required
argument is not an integer"), and `struct.pack("<6B", ...)` and
`struct.pack("<B", ...)` only byte-range ints; `none` models the raise.
The reserved byte at offset 7 is forced to `0xa0`. -/
def Poi.toBin (p : Poi) : Option (List Nat) :=
  match p.lat, p.lon with
  | PyNum.int la, PyNum.int lo =>
    if 1900 ≤ p.year ∧ p.year ≤ 2155 ∧ p.month ≤ 255 ∧ p.day ≤ 255 ∧
        p.hour ≤ 255 ∧ p.minute ≤ 255 ∧ p.second ≤ 255 ∧ p.symbol ≤ 255 ∧
        -2147483648 ≤ la ∧ la < 2147483648 ∧
        -2147483648 ≤ lo ∧ lo < 2147483648 then
      some ([p.year - 1900, p.month, p.day, p.hour, p.minute, p.second,
             p.symbol, 0xa0] ++ le32i la ++ le32i lo)
    else none
  | _, _ => none

theorem getD_append_right_nat (a b : List Nat) (k : Nat) :
    (a ++ b).getD (a.length + k) 0 = b.getD k 0 := by
  rw [List.getD_eq_getElem?_getD, List.getD_eq_getElem?_getD,
    List.getElem?_append_right (by omega)]
  have h : a.length + k - a.length = k := by omega
  rw [h]

theorem rd32_append (a b : List Nat) : rd32 (a ++ b) a.length = rd32 b 0 := by
  rw [rd32, rd32]
  have h0 := getD_append_right_nat a b 0
  have h1 := getD_append_right_nat a b 1
  have h2 := getD_append_right_nat a b 2
  have h3 := getD_append_right_nat a b 3
  rw [Nat.add_zero] at h0
  rw [h0, h1, h2, h3]

theorem rd32_append_left (a b : List Nat) (h : 4 ≤ a.length) :
    rd32 (a ++ b) 0 = rd32 a 0 := by
  rw [rd32, rd32]
  have hg : ∀ k, k < a.length → (a ++ b).getD k 0 = a.getD k 0 := by
    intro k hk
    rw [List.getD_eq_getElem?_getD, List.getD_eq_getElem?_getD,
      List.getElem?_append_left hk]
  rw [hg 0 (by omega), hg 1 (by omega), hg 2 (by omega), hg 3 (by omega)]

theorem asI32_rd32_prefix8 (e0 e1 e2 e3 e4 e5 e6 e7 : Nat) (v : Int)
    (rest : List Nat) (h1 : -2147483648 ≤ v) (h2 : v < 2147483648) :
    asI32 (rd32 (([e0, e1, e2, e3, e4, e5, e6, e7] ++ le32i v) ++ rest) 8) =
      v := by
  rw [List.append_assoc]
  have hb := rd32_append [e0, e1, e2, e3, e4, e5, e6, e7] (le32i v ++ rest)
  simp only [List.length_cons, List.length_nil] at hb
  rw [hb, rd32_append_left _ _ (by rw [le32i_length]), asI32_rd32_le32i v h1 h2]

theorem asI32_rd32_prefix12 (e0 e1 e2 e3 e4 e5 e6 e7 : Nat) (w v : Int)
    (h1 : -2147483648 ≤ v) (h2 : v < 2147483648) :
    asI32 (rd32 (([e0, e1, e2, e3, e4, e5, e6, e7] ++ le32i w) ++ le32i v)
      12) = v := by
  have hlen : ([e0, e1, e2, e3, e4, e5, e6, e7] ++ le32i w).length = 12 := by
    rw [List.length_append, le32i_length]
    simp
  rw [← hlen, rd32_append, asI32_rd32_le32i v h1 h2]

/-- C3 (amended): the decode/encode round trip of `Poi`.  First conjunct
(the defect): every successfully decoded `Poi` has float coordinates
(the `/1e5` true division), and `struct.pack("<i", ...)` in `toBin`
rejects floats, so re-encoding ALWAYS raises — the frozen
decode→encode→decode property holds for no buffer.  Second conjunct (the
salvaged form, with integer coordinates substituted as `fromGpxValues`
would): encoding an integer-coordinate `Poi` with valid local-time
fields and decoding it back (UTC environment, `localize = id`) recovers
the time fields and symbol exactly, the coordinates as the floats
`lat/1e5` and `lon/1e5`, and the reserved byte at offset 7 is `0xa0`. -/
theorem poi_roundtrip_spec :
    (∀ (localize :
        Nat × Nat × Nat × Nat × Nat × Nat → Nat × Nat × Nat × Nat × Nat × Nat)
      (line : List Nat) (p : Poi),
      Poi.fromBin localize line = some p → Poi.toBin p = none) ∧
    (∀ (p : Poi) (la lo : Int) (bin : List Nat),
      p.lat = PyNum.int la → p.lon = PyNum.int lo →
      validDateTime p.year p.month p.day p.hour p.minute p.second = true →
      Poi.toBin p = some bin →
      Poi.fromBin id bin =
        some { year := p.year, month := p.month, day := p.day,
               hour := p.hour, minute := p.minute, second := p.second,
               symbol := p.symbol,
               lat := PyNum.float ((la : ℚ) / 100000),
               lon := PyNum.float ((lo : ℚ) / 100000) } ∧
      bin.getD 7 0 = 0xa0) := by
  constructor
  · intro localize line p h
    simp only [Poi.fromBin] at h
    split at h
    · split at h
      · rw [Option.some.injEq] at h
        subst h
        rfl
      · simp at h
    · simp at h
  · intro p la lo bin hla hlo hvalid htb
    rw [Poi.toBin, hla, hlo] at htb
    simp only at htb
    split at htb
    · rename_i hg
      obtain ⟨h1900, h2155, hmo, hd, hh, hmi, hs, hsym, hla1, hla2, hlo1, hlo2⟩
        := hg
      rw [Option.some.injEq] at htb
      subst htb
      have hrd8 := asI32_rd32_prefix8 (p.year - 1900) p.month p.day p.hour
        p.minute p.second p.symbol 0xa0 la (le32i lo) hla1 hla2
      have hrd12 := asI32_rd32_prefix12 (p.year - 1900) p.month p.day p.hour
        p.minute p.second p.symbol 0xa0 la lo hlo1 hlo2
      have hy : 1900 + (p.year - 1900) = p.year := by omega
      constructor
      · rw [Poi.fromBin]
        rw [if_pos (by
          rw [List.length_append, List.length_append, le32i_length,
            le32i_length]
          simp)]
        rw [if_pos (by
          show validDateTime (1900 + (p.year - 1900)) p.month p.day p.hour
            p.minute p.second = true
          rw [hy]
          exact hvalid)]
        show (some
          { year := 1900 + (p.year - 1900), month := p.month, day := p.day,
            hour := p.hour, minute := p.minute, second := p.second,
            symbol := p.symbol,
            lat := PyNum.float ((asI32 (rd32 (([p.year - 1900, p.month, p.day,
              p.hour, p.minute, p.second, p.symbol, 0xa0] ++ le32i la) ++
              le32i lo) 8) : ℚ) / 100000),
            lon := PyNum.float ((asI32 (rd32 (([p.year - 1900, p.month, p.day,
              p.hour, p.minute, p.second, p.symbol, 0xa0] ++ le32i la) ++
              le32i lo) 12) : ℚ) / 100000) } : Option Poi) = _
        rw [hy, hrd8, hrd12]
      · rfl
    · simp at htb

/-- C3 counterexample to the frozen claim: a well-formed 16-byte POI
line (1910-01-01T00:00:00, symbol 5, lat = lon = 0) decodes fine, but
re-encoding the decoded `Poi` raises `struct.error`, because `fromBin`
made the coordinates floats and `struct.pack("<i", ...)` only accepts
ints — so decode→encode→decode never yields anything. -/
theorem poi_roundtrip_counterexample :
    (Poi.fromBin id
      [10, 1, 1, 0, 0, 0, 5, 0xa0, 0, 0, 0, 0, 0, 0, 0, 0]).isSome = true ∧
    (Poi.fromBin id
      [10, 1, 1, 0, 0, 0, 5, 0xa0, 0, 0, 0, 0, 0, 0, 0, 0]).bind Poi.toBin =
      none := by
  decide

theorem poi_roundtrip_spec_witness :
    (Poi.toBin ⟨1910, 1, 1, 0, 0, 0, 5, PyNum.int 100000,
        PyNum.int (-200000)⟩ =
      some [10, 1, 1, 0, 0, 0, 5, 160, 160, 134, 1, 0, 192, 242, 252, 255]) ∧
    (Poi.fromBin id
        [10, 1, 1, 0, 0, 0, 5, 160, 160, 134, 1, 0, 192, 242, 252, 255] =
      some { year := 1910, month := 1, day := 1, hour := 0, minute := 0,
             second := 0, symbol := 5,
             lat := PyNum.float (((100000 : Int) : ℚ) / 100000),
             lon := PyNum.float (((-200000 : Int) : ℚ) / 100000) } ∧
      [10, 1, 1, 0, 0, 0, 5, 160, 160, 134, 1, 0, 192, 242, 252,
        255].getD 7 0 = 0xa0) ∧
    Poi.toBin ⟨1910, 1, 1, 0, 0, 0, 5,
      PyNum.float ((asI32
        (rd32 [10, 1, 1, 0, 0, 0, 5, 160, 0, 0, 0, 0, 0, 0, 0, 0] 8) : ℚ) /
          100000),
      PyNum.float ((asI32
        (rd32 [10, 1, 1, 0, 0, 0, 5, 160, 0, 0, 0, 0, 0, 0, 0, 0] 12) : ℚ) /
          100000)⟩ = none := by
  refine ⟨by decide, ?_, ?_⟩
  · exact poi_roundtrip_spec.2
      ⟨1910, 1, 1, 0, 0, 0, 5, PyNum.int 100000, PyNum.int (-200000)⟩
      100000 (-200000)
      [10, 1, 1, 0, 0, 0, 5, 160, 160, 134, 1, 0, 192, 242, 252, 255]
      rfl rfl (by decide) (by decide)
  · exact poi_roundtrip_spec.1 id
      [10, 1, 1, 0, 0, 0, 5, 160, 0, 0, 0, 0, 0, 0, 0, 0]
      ⟨1910, 1, 1, 0, 0, 0, 5,
        PyNum.float ((asI32
          (rd32 [10, 1, 1, 0, 0, 0, 5, 160, 0, 0, 0, 0, 0, 0, 0, 0] 8) : ℚ) /
            100000),
        PyNum.float ((asI32
          (rd32 [10, 1, 1, 0, 0, 0, 5, 160, 0, 0, 0, 0, 0, 0, 0, 0] 12) : ℚ) /
            100000)⟩
      rfl

/-! ## DeviceConfig setters (conn2m.py, class DeviceConfig)

Python argument values are modelled as ints or strings (`PyVal`); a
raise is modelled in the result: the pair holds the post-call state and
`some e` when exception `e` propagates (the source raises before any
assignment, so the state component is the unchanged input state then).
`setDeviceConfig`/`setRecordConfig` transmission is outside the model;
only the in-memory snapshot (`deviceConfig`/`recordConfig` entries the
setters touch) is kept. -/

inductive PyVal where
  | int (n : Int)
  | str (s : String)
  deriving DecidableEq, Repr

inductive PyError where
  | unsupportedValue
  | attributeError
  deriving DecidableEq, Repr

structure DeviceConfigState where
  language : Int
  turnRadius : Int
  lightDuration : Int
  autoOff : Int
  homeTz : Int
  currentTz : Int
  units : Int
  timeInterval : Int
  distanceInterval : Int
  speedInterval : Int
  deriving DecidableEq, Repr

/-- ASCII lowercasing of one character (`str.lower()` restricted to the
ASCII arguments the tool compares against). -/
def lowerChar (c : Char) : Char :=
  if 65 ≤ c.toNat ∧ c.toNat ≤ 90 then Char.ofNat (c.toNat + 32) else c

/-- Python `str.lower()` on the modelled (ASCII) strings. -/
def pyLower (s : String) : String := String.mk (s.data.map lowerChar)

def decDigit (c : Char) : Option Nat :=
  if 48 ≤ c.toNat ∧ c.toNat ≤ 57 then some (c.toNat - 48) else none

def decNatAux : List Char → Nat → Option Nat
  | [], acc => some acc
  | c :: cs, acc =>
    match decDigit c with
    | some d => decNatAux cs (acc * 10 + d)
    | none => none

/-- Python `int(string)`: an optional sign followed by a non-empty run
of decimal digits (whitespace stripping and digit-group underscores are
outside the modelled inputs). -/
def pyInt (s : String) : Option Int :=
  match s.data with
  | [] => none
  | '-' :: cs =>
    if cs = [] then none else (decNatAux cs 0).map (fun n => -(n : Int))
  | '+' :: cs =>
    if cs = [] then none else (decNatAux cs 0).map (fun n => (n : Int))
  | cs => (decNatAux cs 0).map (fun n => (n : Int))

/-- Python `int(...)` on the modelled values: ints pass through, strings
parse as optionally-signed decimal numerals or fail. -/
def pyIntOf : PyVal → Option Int
  | .int n => some n
  | .str s => pyInt s

/-- `reversedDict(languageDict)[language]` for the six supported codes. -/
def langCode (s : String) : Int :=
  if s = "en" then 0 else if s = "fr" then 1 else if s = "de" then 2
  else if s = "nl" then 3 else if s = "it" then 4 else 5

/-- `DeviceConfig.set_language`. -/
def set_language (st : DeviceConfigState) (language : PyVal) :
    DeviceConfigState × Option PyError :=
  match language with
  | .str s =>
    if s = "en" ∨ s = "fr" ∨ s = "de" ∨ s = "nl" ∨ s = "it" ∨ s = "es" then
      ({ st with language := langCode s }, none)
    else (st, some .unsupportedValue)
  | .int _ => (st, some .unsupportedValue)

/-- `DeviceConfig.set_turnRadius`. -/
def set_turnRadius (st : DeviceConfigState) (turnRadius : PyVal) :
    DeviceConfigState × Option PyError :=
  match turnRadius with
  | .int n =>
    if n = 5 ∨ n = 10 ∨ n = 20 ∨ n = 30 ∨ n = 50 then
      ({ st with turnRadius := n }, none)
    else (st, some .unsupportedValue)
  | .str _ => (st, some .unsupportedValue)

/-- `DeviceConfig.set_lightDuration`: integer keys of
`lightDurationDict`, or the strings `"off"`/`"on"` case-insensitively. -/
def set_lightDuration (st : DeviceConfigState) (duration : PyVal) :
    DeviceConfigState × Option PyError :=
  match duration with
  | .int n =>
    if n = 0 ∨ n = 10 ∨ n = 30 ∨ n = 60 ∨ n = 255 then
      ({ st with lightDuration := n }, none)
    else (st, some .unsupportedValue)
  | .str s =>
    if pyLower s = "off" then ({ st with lightDuration := 0 }, none)
    else if pyLower s = "on" then ({ st with lightDuration := 255 }, none)
    else (st, some .unsupportedValue)

/-- `DeviceConfig.set_autoOff`. -/
def set_autoOff (st : DeviceConfigState) (autoOff : PyVal) :
    DeviceConfigState × Option PyError :=
  match autoOff with
  | .int n =>
    if n = 0 ∨ n = 10 ∨ n = 30 ∨ n = 60 then
      ({ st with autoOff := n }, none)
    else (st, some .unsupportedValue)
  | .str _ => (st, some .unsupportedValue)

/-- `DeviceConfig._set_timezone`: `range(-12, 13)` membership (false for
any non-int), then assignment keyed on `tzType`. -/
def set_timezone (st : DeviceConfigState) (timezone : PyVal)
    (tzType : String) : DeviceConfigState × Option PyError :=
  match timezone with
  | .int n =>
    if -12 ≤ n ∧ n ≤ 12 then
      (if tzType = "home" then { st with homeTz := n }
       else if tzType = "current" then { st with currentTz := n }
       else st, none)
    else (st, some .unsupportedValue)
  | .str _ => (st, some .unsupportedValue)

/-- `DeviceConfig.set_homeTz`. -/
def set_homeTz (st : DeviceConfigState) (timezone : PyVal) :
    DeviceConfigState × Option PyError :=
  set_timezone st timezone "home"

/-- `DeviceConfig.set_currentTz`. -/
def set_currentTz (st : DeviceConfigState) (timezone : PyVal) :
    DeviceConfigState × Option PyError :=
  set_timezone st timezone "current"

/-- `DeviceConfig.set_units`: the source calls `units.lower()` BEFORE
any validation, so a non-string argument raises `AttributeError`
(`'int' object has no attribute 'lower'`), not `UnsupportedValue`. -/
def set_units (st : DeviceConfigState) (units : PyVal) :
    DeviceConfigState × Option PyError :=
  match units with
  | .str s =>
    if pyLower s = "km" then ({ st with units := 0 }, none)
    else if pyLower s = "mile" then ({ st with units := 1 }, none)
    else (st, some .unsupportedValue)
  | .int _ => (st, some .attributeError)

/-- `DeviceConfig.set_timeInterval`: `int(interval)` with a bare
`except` mapping any failure to `UnsupportedValue`. -/
def set_timeInterval (st : DeviceConfigState) (interval : PyVal) :
    DeviceConfigState × Option PyError :=
  match pyIntOf interval with
  | some n => ({ st with timeInterval := n }, none)
  | none => (st, some .unsupportedValue)

/-- `DeviceConfig.set_distanceInterval`. -/
def set_distanceInterval (st : DeviceConfigState) (interval : PyVal) :
    DeviceConfigState × Option PyError :=
  match pyIntOf interval with
  | some n => ({ st with distanceInterval := n }, none)
  | none => (st, some .unsupportedValue)

/-- `DeviceConfig.set_speedInterval`. -/
def set_speedInterval (st : DeviceConfigState) (interval : PyVal) :
    DeviceConfigState × Option PyError :=
  match pyIntOf interval with
  | some n => ({ st with speedInterval := n }, none)
  | none => (st, some .unsupportedValue)

/-- The legal value set of each setter, read off the enumerations in the
source (`languageDict.values()`, `turnRadiusDict`, `lightDurationDict`
plus `"off"`/`"on"`, `autoOffDict`, `range(-12, 13)`, `('km', 'mile')`,
"coercible with `int()`"). -/
def legalLanguage : PyVal → Bool
  | .str s =>
    decide (s = "en" ∨ s = "fr" ∨ s = "de" ∨ s = "nl" ∨ s = "it" ∨ s = "es")
  | .int _ => false

def legalTurnRadius : PyVal → Bool
  | .int n => decide (n = 5 ∨ n = 10 ∨ n = 20 ∨ n = 30 ∨ n = 50)
  | .str _ => false

def legalLightDuration : PyVal → Bool
  | .int n => decide (n = 0 ∨ n = 10 ∨ n = 30 ∨ n = 60 ∨ n = 255)
  | .str s => decide (pyLower s = "off" ∨ pyLower s = "on")

def legalAutoOff : PyVal → Bool
  | .int n => decide (n = 0 ∨ n = 10 ∨ n = 30 ∨ n = 60)
  | .str _ => false

def legalTimezone : PyVal → Bool
  | .int n => decide (-12 ≤ n ∧ n ≤ 12)
  | .str _ => false

def legalUnits : PyVal → Bool
  | .str s => decide (pyLower s = "km" ∨ pyLower s = "mile")
  | .int _ => false

def legalInterval (v : PyVal) : Bool := (pyIntOf v).isSome

/-- C9 (amended): every DeviceConfig setter, on an argument outside its
legal value set, leaves the configuration snapshot unchanged and raises
— `UnsupportedValue` in every case except `set_units`, which on a
non-string argument raises `AttributeError` instead (it calls
`units.lower()` before validating). -/
theorem config_setters_spec :
    (∀ st v, legalLanguage v = false →
      set_language st v = (st, some PyError.unsupportedValue)) ∧
    (∀ st v, legalTurnRadius v = false →
      set_turnRadius st v = (st, some PyError.unsupportedValue)) ∧
    (∀ st v, legalLightDuration v = false →
      set_lightDuration st v = (st, some PyError.unsupportedValue)) ∧
    (∀ st v, legalAutoOff v = false →
      set_autoOff st v = (st, some PyError.unsupportedValue)) ∧
    (∀ st v, legalTimezone v = false →
      set_homeTz st v = (st, some PyError.unsupportedValue)) ∧
    (∀ st v, legalTimezone v = false →
      set_currentTz st v = (st, some PyError.unsupportedValue)) ∧
    (∀ st s, legalUnits (PyVal.str s) = false →
      set_units st (PyVal.str s) = (st, some PyError.unsupportedValue)) ∧
    (∀ st n, set_units st (PyVal.int n) =
      (st, some PyError.attributeError)) ∧
    (∀ st v, legalInterval v = false →
      set_timeInterval st v = (st, some PyError.unsupportedValue)) ∧
    (∀ st v, legalInterval v = false →
      set_distanceInterval st v = (st, some PyError.unsupportedValue)) ∧
    (∀ st v, legalInterval v = false →
      set_speedInterval st v = (st, some PyError.unsupportedValue)) := by
  refine ⟨?_, ?_, ?_, ?_, ?_, ?_, ?_, ?_, ?_, ?_, ?_⟩
  · intro st v h
    cases v <;> simp_all [set_language, legalLanguage]
  · intro st v h
    cases v <;> simp_all [set_turnRadius, legalTurnRadius]
  · intro st v h
    cases v <;> simp_all [set_lightDuration, legalLightDuration]
  · intro st v h
    cases v <;> simp_all [set_autoOff, legalAutoOff]
  · intro st v h
    cases v <;> simp_all [set_homeTz, set_timezone, legalTimezone]
  · intro st v h
    cases v <;> simp_all [set_currentTz, set_timezone, legalTimezone]
  · intro st s h
    simp_all [set_units, legalUnits]
  · intro st n
    rfl
  · intro st v h
    rw [legalInterval] at h
    have hn : pyIntOf v = none := by
      cases hpv : pyIntOf v
      · rfl
      · rw [hpv] at h
        simp at h
    rw [set_timeInterval, hn]
  · intro st v h
    rw [legalInterval] at h
    have hn : pyIntOf v = none := by
      cases hpv : pyIntOf v
      · rfl
      · rw [hpv] at h
        simp at h
    rw [set_distanceInterval, hn]
  · intro st v h
    rw [legalInterval] at h
    have hn : pyIntOf v = none := by
      cases hpv : pyIntOf v
      · rfl
      · rw [hpv] at h
        simp at h
    rw [set_speedInterval, hn]

/-- C9 counterexample to the frozen wording: `set_units` called with the
integer `0` (an argument outside its legal value set) raises
`AttributeError` — from `units.lower()` on an int — not
`UnsupportedValue`.  (The snapshot is still unchanged.) -/
theorem config_setters_counterexample :
    set_units ⟨0, 5, 0, 0, 0, 0, 0, 0, 0, 0⟩ (PyVal.int 0) =
      (⟨0, 5, 0, 0, 0, 0, 0, 0, 0, 0⟩, some PyError.attributeError) ∧
    PyError.attributeError ≠ PyError.unsupportedValue := by
  exact ⟨rfl, by decide⟩

theorem config_setters_spec_witness :
    set_language ⟨0, 5, 0, 0, 0, 0, 0, 0, 0, 0⟩ (PyVal.int 7) =
      (⟨0, 5, 0, 0, 0, 0, 0, 0, 0, 0⟩, some PyError.unsupportedValue) ∧
    set_turnRadius ⟨0, 5, 0, 0, 0, 0, 0, 0, 0, 0⟩ (PyVal.int 7) =
      (⟨0, 5, 0, 0, 0, 0, 0, 0, 0, 0⟩, some PyError.unsupportedValue) ∧
    set_lightDuration ⟨0, 5, 0, 0, 0, 0, 0, 0, 0, 0⟩ (PyVal.int 7) =
      (⟨0, 5, 0, 0, 0, 0, 0, 0, 0, 0⟩, some PyError.unsupportedValue) ∧
    set_autoOff ⟨0, 5, 0, 0, 0, 0, 0, 0, 0, 0⟩ (PyVal.int 7) =
      (⟨0, 5, 0, 0, 0, 0, 0, 0, 0, 0⟩, some PyError.unsupportedValue) ∧
    set_homeTz ⟨0, 5, 0, 0, 0, 0, 0, 0, 0, 0⟩ (PyVal.int 13) =
      (⟨0, 5, 0, 0, 0, 0, 0, 0, 0, 0⟩, some PyError.unsupportedValue) ∧
    set_currentTz ⟨0, 5, 0, 0, 0, 0, 0, 0, 0, 0⟩ (PyVal.int 13) =
      (⟨0, 5, 0, 0, 0, 0, 0, 0, 0, 0⟩, some PyError.unsupportedValue) ∧
    set_units ⟨0, 5, 0, 0, 0, 0, 0, 0, 0, 0⟩ (PyVal.str "m") =
      (⟨0, 5, 0, 0, 0, 0, 0, 0, 0, 0⟩, some PyError.unsupportedValue) ∧
    set_units ⟨0, 5, 0, 0, 0, 0, 0, 0, 0, 0⟩ (PyVal.int 1) =
      (⟨0, 5, 0, 0, 0, 0, 0, 0, 0, 0⟩, some PyError.attributeError) ∧
    set_timeInterval ⟨0, 5, 0, 0, 0, 0, 0, 0, 0, 0⟩ (PyVal.str "x") =
      (⟨0, 5, 0, 0, 0, 0, 0, 0, 0, 0⟩, some PyError.unsupportedValue) ∧
    set_distanceInterval ⟨0, 5, 0, 0, 0, 0, 0, 0, 0, 0⟩ (PyVal.str "x") =
      (⟨0, 5, 0, 0, 0, 0, 0, 0, 0, 0⟩, some PyError.unsupportedValue) ∧
    set_speedInterval ⟨0, 5, 0, 0, 0, 0, 0, 0, 0, 0⟩ (PyVal.str "x") =
      (⟨0, 5, 0, 0, 0, 0, 0, 0, 0, 0⟩, some PyError.unsupportedValue) := by
  refine ⟨?_, ?_, ?_, ?_, ?_, ?_, ?_, ?_, ?_, ?_, ?_⟩
  · exact config_setters_spec.1 _ _ (by decide)
  · exact config_setters_spec.2.1 _ _ (by decide)
  · exact config_setters_spec.2.2.1 _ _ (by decide)
  · exact config_setters_spec.2.2.2.1 _ _ (by decide)
  · exact config_setters_spec.2.2.2.2.1 _ _ (by decide)
  · exact config_setters_spec.2.2.2.2.2.1 _ _ (by decide)
  · exact config_setters_spec.2.2.2.2.2.2.1 _ "m" (by decide)
  · exact config_setters_spec.2.2.2.2.2.2.2.1 _ 1
  · exact config_setters_spec.2.2.2.2.2.2.2.2.1 _ _ (by decide)
  · exact config_setters_spec.2.2.2.2.2.2.2.2.2.1 _ _ (by decide)
  · exact config_setters_spec.2.2.2.2.2.2.2.2.2.2 _ _ (by decide)

/-! ### Chartable lemmas (Route.makeOutCharTable) -/

theorem charFold_pfx (l : List Nat) :
    ∀ ct : List Nat,
      ct <+: l.foldl (fun ct2 c => if c ∈ ct2 then ct2 else ct2 ++ [c]) ct := by
  induction l with
  | nil => intro ct; simp
  | cons c cs ih =>
    intro ct
    rw [List.foldl_cons]
    refine List.IsPrefix.trans ?_ (ih _)
    split
    · exact List.prefix_refl ct
    · exact ⟨[c], rfl⟩

theorem charFold_mem (l : List Nat) :
    ∀ (ct : List Nat) (c : Nat), c ∈ ct ∨ c ∈ l →
      c ∈ l.foldl (fun ct2 c2 => if c2 ∈ ct2 then ct2 else ct2 ++ [c2]) ct := by
  induction l with
  | nil =>
    intro ct c h
    rcases h with h | h
    · exact h
    · simp at h
  | cons x xs ih =>
    intro ct c h
    rw [List.foldl_cons]
    apply ih
    rcases h with h | h
    · left
      split
      · exact h
      · exact List.mem_append_left _ h
    · rcases List.mem_cons.mp h with h | h
      · subst h
        left
        split
        · assumption
        · exact List.mem_append_right _ (by simp)
      · right
        exact h

theorem charFold_mem_src (l : List Nat) :
    ∀ (ct : List Nat) (x : Nat),
      x ∈ l.foldl (fun ct2 c2 => if c2 ∈ ct2 then ct2 else ct2 ++ [c2]) ct →
      x ∈ ct ∨ x ∈ l := by
  induction l with
  | nil => intro ct x h; exact Or.inl h
  | cons c cs ih =>
    intro ct x h
    rw [List.foldl_cons] at h
    rcases ih _ x h with h2 | h2
    · split at h2
      · exact Or.inl h2
      · rcases List.mem_append.mp h2 with h3 | h3
        · exact Or.inl h3
        · simp at h3
          subst h3
          exact Or.inr (by simp)
    · exact Or.inr (List.mem_cons_of_mem c h2)

theorem charFold_nodup (l : List Nat) :
    ∀ ct : List Nat, ct.Nodup →
      (l.foldl (fun ct2 c2 => if c2 ∈ ct2 then ct2 else ct2 ++ [c2])
        ct).Nodup := by
  induction l with
  | nil => intro ct h; exact h
  | cons c cs ih =>
    intro ct h
    rw [List.foldl_cons]
    apply ih
    split
    · exact h
    · rename_i hnm
      rw [List.nodup_append]
      exact ⟨h, List.nodup_singleton c, by simpa using fun hc => hnm hc⟩

theorem makeOutCharTable_pfx (points : List RoutePointIn) :
    [0] <+: makeOutCharTable points := by
  rw [makeOutCharTable]
  generalize h : ([0] : List Nat) = ct
  clear h
  induction points generalizing ct with
  | nil => simp
  | cons p ps ih =>
    rw [List.foldl_cons]
    exact List.IsPrefix.trans (charFold_pfx p.name ct) (ih _)

theorem outerFold_pfx (ps : List RoutePointIn) :
    ∀ ct : List Nat,
      ct <+: ps.foldl (fun ct2 pt =>
        pt.name.foldl (fun ct3 c2 => if c2 ∈ ct3 then ct3 else ct3 ++ [c2])
          ct2) ct := by
  induction ps with
  | nil => intro ct; simp
  | cons p rest ih =>
    intro ct
    rw [List.foldl_cons]
    exact List.IsPrefix.trans (charFold_pfx p.name ct) (ih _)

theorem makeOutCharTable_mem (points : List RoutePointIn) :
    ∀ (p : RoutePointIn), p ∈ points → ∀ c ∈ p.name,
      c ∈ makeOutCharTable points := by
  rw [makeOutCharTable]
  have main : ∀ (ps : List RoutePointIn) (ct : List Nat) (p : RoutePointIn),
      p ∈ ps → ∀ c ∈ p.name,
      c ∈ ps.foldl (fun ct2 pt =>
        pt.name.foldl (fun ct3 c2 => if c2 ∈ ct3 then ct3 else ct3 ++ [c2])
          ct2) ct := by
    intro ps
    induction ps with
    | nil => intro ct p hp; simp at hp
    | cons q qs ih =>
      intro ct p hp c hc
      rw [List.foldl_cons]
      rcases List.mem_cons.mp hp with h | h
      · subst h
        exact (outerFold_pfx qs _).subset (charFold_mem p.name ct c
          (Or.inr hc))
      · exact ih _ p h c hc
  exact main points [0]

theorem makeOutCharTable_mem_src (points : List RoutePointIn) :
    ∀ x ∈ makeOutCharTable points,
      x = 0 ∨ ∃ p ∈ points, x ∈ p.name := by
  rw [makeOutCharTable]
  have main : ∀ (ps : List RoutePointIn) (ct : List Nat) (x : Nat),
      x ∈ ps.foldl (fun ct2 pt =>
        pt.name.foldl (fun ct3 c2 => if c2 ∈ ct3 then ct3 else ct3 ++ [c2])
          ct2) ct →
      x ∈ ct ∨ ∃ p ∈ ps, x ∈ p.name := by
    intro ps
    induction ps with
    | nil => intro ct x h; exact Or.inl h
    | cons q qs ih =>
      intro ct x h
      rw [List.foldl_cons] at h
      rcases ih _ x h with h2 | h2
      · rcases charFold_mem_src q.name ct x h2 with h3 | h3
        · exact Or.inl h3
        · exact Or.inr ⟨q, by simp, h3⟩
      · obtain ⟨p, hp, hx⟩ := h2
        exact Or.inr ⟨p, List.mem_cons_of_mem q hp, hx⟩
  intro x hx
  rcases main points [0] x hx with h | h
  · simp at h
    exact Or.inl h
  · exact Or.inr h

theorem makeOutCharTable_nodup (points : List RoutePointIn) :
    (makeOutCharTable points).Nodup := by
  rw [makeOutCharTable]
  have main : ∀ (ps : List RoutePointIn) (ct : List Nat), ct.Nodup →
      (ps.foldl (fun ct2 pt =>
        pt.name.foldl (fun ct3 c2 => if c2 ∈ ct3 then ct3 else ct3 ++ [c2])
          ct2) ct).Nodup := by
    intro ps
    induction ps with
    | nil => intro ct h; exact h
    | cons q qs ih =>
      intro ct h
      rw [List.foldl_cons]
      exact ih _ (charFold_nodup q.name ct h)
  exact main points [0] (List.nodup_singleton 0)

theorem makeOutCharTable_head (points : List RoutePointIn) :
    ∃ rest, makeOutCharTable points = 0 :: rest := by
  obtain ⟨t, ht⟩ := makeOutCharTable_pfx points
  exact ⟨t, ht.symm⟩

theorem nodup_bounded_length (ct : List Nat) (hn : ct.Nodup)
    (hb : ∀ x ∈ ct, x < 65536) : ct.length ≤ 65536 := by
  have h1 : ct.toFinset.card = ct.length := List.toFinset_card_of_nodup hn
  have h2 : ct.toFinset ⊆ Finset.range 65536 := by
    intro x hx
    rw [Finset.mem_range]
    exact hb x (List.mem_toFinset.mp hx)
  have h3 := Finset.card_le_card h2
  rw [Finset.card_range] at h3
  omega

theorem getD_indexOf (ct : List Nat) (c : Nat) (h : c ∈ ct) :
    ct.getD (ct.indexOf c) 0 = c := by
  have hlt : ct.indexOf c < ct.length := List.indexOf_lt_length.mpr h
  rw [List.getD_eq_getElem?_getD, List.getElem?_eq_getElem hlt]
  simp [List.getElem_indexOf]

theorem indexOf_ne_zero (rest : List Nat) (c : Nat) (hc : c ≠ 0) :
    (0 :: rest).indexOf c ≠ 0 := by
  intro h
  have h2 := getD_indexOf (0 :: rest) c ?mem
  case mem =>
    by_contra hnm
    rw [List.indexOf_eq_length.mpr hnm] at h
    simp at h
  rw [h] at h2
  simp at h2
  exact hc h2.symm

/-! ### Point-record read lemmas (RoutePoint.fromBin ∘ RoutePoint.toBin) -/

theorem getD_append_left_nat (a b : List Nat) (k : Nat) (h : k < a.length) :
    (a ++ b).getD k 0 = a.getD k 0 := by
  rw [List.getD_eq_getElem?_getD, List.getD_eq_getElem?_getD,
    List.getElem?_append_left h]

theorem getD_append_right_le (a b : List Nat) (k : Nat) (h : a.length ≤ k) :
    (a ++ b).getD k 0 = b.getD (k - a.length) 0 := by
  rw [List.getD_eq_getElem?_getD, List.getD_eq_getElem?_getD,
    List.getElem?_append_right h]

theorem getD_replicate_zero (m j : Nat) :
    (List.replicate m 0).getD j 0 = 0 := by
  induction m generalizing j with
  | zero => simp
  | succ n ih =>
    rcases j with _ | i
    · simp [List.replicate_succ]
    · rw [List.replicate_succ, List.getD_cons_succ]
      exact ih i

theorem getD_mem_nat (l : List Nat) (i : Nat) (h : i < l.length) :
    l.getD i 0 ∈ l := by
  rw [List.getD_eq_getElem?_getD, List.getElem?_eq_getElem h]
  exact List.getElem_mem h

theorem getD_map_lt (f : Nat → Nat) (l : List Nat) (i : Nat)
    (h : i < l.length) : (l.map f).getD i 0 = f (l.getD i 0) := by
  rw [List.getD_eq_getElem?_getD, List.getD_eq_getElem?_getD,
    List.getElem?_eq_getElem h, List.getElem?_eq_getElem (by simpa using h)]
  simp

theorem rd16_append_left (a b : List Nat) (k : Nat) (h : k + 1 < a.length) :
    rd16 (a ++ b) k = rd16 a k := by
  rw [rd16, rd16, getD_append_left_nat a b k (by omega),
    getD_append_left_nat a b (k + 1) h]

theorem rd16_append (a b : List Nat) : rd16 (a ++ b) a.length = rd16 b 0 := by
  rw [rd16, rd16]
  have h0 := getD_append_right_nat a b 0
  have h1 := getD_append_right_nat a b 1
  rw [Nat.add_zero] at h0
  rw [h0, h1]

theorem rd16_le16_append (v : Nat) (rest : List Nat) :
    rd16 (le16 v ++ rest) 0 = v % 65536 := by
  show rd16 (v % 256 :: v / 256 % 256 :: rest) 0 = v % 65536
  rw [rd16, List.getD_cons_zero, List.getD_cons_succ, List.getD_cons_zero]
  omega

theorem rd32_le32_append (v : Nat) (rest : List Nat) :
    rd32 (le32 v ++ rest) 0 = v % 4294967296 := by
  show rd32 (v % 256 :: v / 256 % 256 :: v / 65536 % 256 ::
    v / 16777216 % 256 :: rest) 0 = v % 4294967296
  simp only [rd32, List.getD_cons_zero, List.getD_cons_succ]
  omega

theorem skip2_rd16 (a b : Nat) (l : List Nat) (k : Nat) :
    rd16 (a :: b :: l) (k + 2) = rd16 l k := rfl

theorem rd16_zero_pad (a : List Nat) (m k : Nat) (h : a.length ≤ k) :
    rd16 (a ++ List.replicate m 0) k = 0 := by
  rw [rd16, getD_append_right_le a _ k h,
    getD_append_right_le a _ (k + 1) (by omega),
    getD_replicate_zero, getD_replicate_zero]

theorem rd16_flatten_le16 (xs : List Nat) :
    ∀ (rest : List Nat) (i : Nat), i < xs.length →
      rd16 ((xs.map le16).flatten ++ rest) (2 * i) = xs.getD i 0 % 65536 := by
  induction xs with
  | nil => intro rest i hi; simp at hi
  | cons x txs ih =>
    intro rest i hi
    rw [List.map_cons, List.flatten_cons, List.append_assoc]
    rcases i with _ | j
    · rw [Nat.mul_zero, rd16_le16_append, List.getD_cons_zero]
    · rw [show 2 * (j + 1) = 2 * j + 2 from by ring]
      rw [le16]
      simp only [List.cons_append, List.nil_append]
      rw [skip2_rd16, List.getD_cons_succ]
      exact ih rest j (by simpa using hi)

theorem map_range_getD {α β : Type} (l : List α) (g : α → β) (d : α) :
    (List.range l.length).map (fun i => g (l.getD i d)) = l.map g := by
  induction l with
  | nil => simp
  | cons x xs ih =>
    rw [List.length_cons, List.range_succ_eq_map, List.map_cons,
      List.map_map]
    refine congrArg₂ List.cons rfl ?_
    rw [← ih]
    apply List.map_congr_left
    intro i hi
    simp [Function.comp, List.getD_cons_succ]

theorem rd16_le32 (v : Nat) : rd16 (le32 v) 0 = v % 65536 := by
  rw [rd16, le32]
  simp only [List.getD_cons_zero, List.getD_cons_succ]
  omega

theorem nameBytes_length (ct : List Nat) (p : RoutePointIn) :
    ((p.name.map (fun c => le16 (ct.indexOf c))).flatten).length =
      p.name.length * 2 := by
  rw [flatten_length_of_all 2]
  · simp
  · intro c hc
    simp only [List.mem_map] at hc
    obtain ⟨a, _, hca⟩ := hc
    rw [← hca]
    exact le16_length _

theorem routePointBin_length (ct : List Nat) (p : RoutePointIn)
    (h : p.name.length ≤ 32) : (RoutePoint.toBin ct p).length = 76 := by
  simp only [RoutePoint.toBin]
  simp only [List.length_append, le32_length, le32i_length,
    List.length_replicate]
  rw [nameBytes_length]
  omega

theorem rd16_append_at (a b : List Nat) (k : Nat) (h : a.length = k) :
    rd16 (a ++ b) k = rd16 b 0 := by
  subst h
  exact rd16_append a b

theorem rd32_append_at (a b : List Nat) (k : Nat) (h : a.length = k) :
    rd32 (a ++ b) k = rd32 b 0 := by
  subst h
  exact rd32_append a b

theorem routePoint_roundtrip (ct : List Nat) (p : RoutePointIn)
    (hlen : p.name.length ≤ 32) (hct : ct.length ≤ 65536)
    (hmem : ∀ c ∈ p.name, c ∈ ct) (hnz : ∀ c ∈ p.name, c ≠ 0)
    (hhead : ∃ rest, ct = 0 :: rest)
    (hsym : p.symbol < 65536)
    (hla1 : -2147483648 ≤ p.lat) (hla2 : p.lat < 2147483648)
    (hlo1 : -2147483648 ≤ p.lon) (hlo2 : p.lon < 2147483648) :
    RoutePoint.fromBin ct (RoutePoint.toBin ct p) =
      { name := p.name, symbol := p.symbol,
        lat := (p.lat : ℚ) / 100000, lon := (p.lon : ℚ) / 100000 } := by
  have hNlen := nameBytes_length ct p
  have hNmap : p.name.map (fun c => le16 (ct.indexOf c)) =
      (p.name.map (fun c => ct.indexOf c)).map le16 := by
    rw [List.map_map]
    rfl
  have hshape : RoutePoint.toBin ct p =
      (((p.name.map (fun c => le16 (ct.indexOf c))).flatten ++
          List.replicate
            (64 - ((p.name.map (fun c => le16 (ct.indexOf c))).flatten).length)
            0) ++
        le32 p.symbol ++ le32i p.lat ++ le32i p.lon) := by
    simp only [RoutePoint.toBin]
  have hA64 : ((p.name.map (fun c => le16 (ct.indexOf c))).flatten ++
      List.replicate
        (64 - ((p.name.map (fun c => le16 (ct.indexOf c))).flatten).length)
        0).length = 64 := by
    rw [List.length_append, List.length_replicate, hNlen]
    omega
  -- reads in the 64-byte name region
  have hstrip : ∀ k, k + 1 < 64 →
      rd16 (RoutePoint.toBin ct p) k =
      rd16 ((p.name.map (fun c => le16 (ct.indexOf c))).flatten ++
        List.replicate
          (64 - ((p.name.map (fun c => le16 (ct.indexOf c))).flatten).length)
          0) k := by
    intro k hk
    rw [hshape]
    rw [rd16_append_left _ _ k (by
      simp only [List.length_append, le32_length, le32i_length, hA64]
      omega)]
    rw [rd16_append_left _ _ k (by
      simp only [List.length_append, le32_length, hA64]
      omega)]
    rw [rd16_append_left _ _ k (by rw [hA64]; omega)]
  have hread_name : ∀ i, i < p.name.length →
      rd16 (RoutePoint.toBin ct p) (2 * i) =
        ct.indexOf (p.name.getD i 0) := by
    intro i hi
    rw [hstrip (2 * i) (by omega)]
    rw [hNmap, rd16_flatten_le16 _ _ i (by simpa using hi)]
    rw [getD_map_lt _ _ i hi]
    have hidx : ct.indexOf (p.name.getD i 0) < ct.length :=
      List.indexOf_lt_length.mpr (hmem _ (getD_mem_nat _ i hi))
    omega
  have hread_pad : ∀ i, p.name.length ≤ i → i < 32 →
      rd16 (RoutePoint.toBin ct p) (2 * i) = 0 := by
    intro i h1 h2
    rw [hstrip (2 * i) (by omega)]
    exact rd16_zero_pad _ _ (2 * i) (by rw [hNlen]; omega)
  -- symbol read
  have hread_sym : rd16 (RoutePoint.toBin ct p) 64 = p.symbol := by
    rw [hshape]
    rw [rd16_append_left _ _ 64 (by
      simp only [List.length_append, le32_length, le32i_length, hA64]
      omega)]
    rw [rd16_append_left _ _ 64 (by
      simp only [List.length_append, le32_length, hA64]
      omega)]
    rw [rd16_append_at _ _ 64 hA64, rd16_le32]
    omega
  -- lat read
  have hread_lat : asI32 (rd32 (RoutePoint.toBin ct p) 68) = p.lat := by
    rw [hshape, List.append_assoc _ (le32i p.lat) (le32i p.lon)]
    rw [rd32_append_at _ _ 68 (by rw [List.length_append, le32_length, hA64])]
    rw [rd32_append_left _ _ (by rw [le32i_length])]
    exact asI32_rd32_le32i _ hla1 hla2
  -- lon read
  have hread_lon : asI32 (rd32 (RoutePoint.toBin ct p) 72) = p.lon := by
    rw [hshape]
    rw [rd32_append_at _ _ 72 (by
      simp only [List.length_append, le32_length, le32i_length, hA64])]
    exact asI32_rd32_le32i _ hlo1 hlo2
  -- assemble
  simp only [RoutePoint.fromBin]
  rw [RoutePointOut.mk.injEq]
  refine ⟨?_, hread_sym, by rw [hread_lat], by rw [hread_lon]⟩
  have hsplit : (List.range 32).map
      (fun i => rd16 (RoutePoint.toBin ct p) (2 * i)) =
      p.name.map (fun c => ct.indexOf c) ++
        List.replicate (32 - p.name.length) 0 := by
    rw [show (32 : Nat) = p.name.length + (32 - p.name.length) from by omega,
      List.range_add, List.map_append]
    congr 1
    · apply List.ext_getElem (by simp)
      intro i h1 h2
      simp only [List.getElem_map, List.getElem_range]
      rw [hread_name i (by simpa using h2)]
      congr 1
      rw [List.getD_eq_getElem?_getD,
        List.getElem?_eq_getElem (by simpa using h2), Option.getD_some]
    · rw [List.eq_replicate_iff]
      constructor
      · simp
      · intro b hb
        simp only [List.map_map, List.mem_map, List.mem_range] at hb
        obtain ⟨j, hj, hjb⟩ := hb
        rw [← hjb]
        simp only [Function.comp_apply]
        exact hread_pad (p.name.length + j) (by omega) (by omega)
  rw [hsplit, List.filter_append]
  have hf1 : (p.name.map (fun c => ct.indexOf c)).filter
      (fun ind => ind != 0) = p.name.map (fun c => ct.indexOf c) := by
    rw [List.filter_eq_self]
    intro a ha
    simp only [List.mem_map] at ha
    obtain ⟨c, hc, hca⟩ := ha
    obtain ⟨rest, hrest⟩ := hhead
    rw [← hca, bne_iff_ne, ne_eq]
    rw [hrest]
    exact indexOf_ne_zero rest c (hnz c hc)
  have hf2 : (List.replicate (32 - p.name.length) 0).filter
      (fun ind => ind != 0) = [] := by
    rw [List.filter_eq_nil_iff]
    intro a ha
    rw [List.eq_of_mem_replicate ha]
    simp
  rw [hf1, hf2, List.append_nil, List.map_map]
  conv_rhs => rw [← List.map_id p.name]
  apply List.map_congr_left
  intro c hc
  simp only [Function.comp_apply, id_eq]
  exact getD_indexOf ct c (hmem c hc)

/-! ### Route.toBin / Route.parseBin assembly lemmas -/

theorem le16i_length (v : Int) : (le16i v).length = 2 := rfl

theorem take_append_at (a b : List Nat) (k : Nat) (h : a.length = k) :
    (a ++ b).take k = a := by
  subst h
  exact List.take_left a b

theorem drop_append_at (a b : List Nat) (k : Nat) (h : a.length = k) :
    (a ++ b).drop k = b := by
  subst h
  exact List.drop_left a b

theorem getD_mem_any {α : Type} (l : List α) (d : α) (i : Nat)
    (h : i < l.length) : l.getD i d ∈ l := by
  rw [List.getD_eq_getElem?_getD, List.getElem?_eq_getElem h]
  exact List.getElem_mem h

theorem encodeUtf16_length_bmp (c : Nat) (h : c < 65536) :
    (encodeUtf16 c).length = 2 := by
  rw [encodeUtf16, if_pos h]
  rfl

theorem makeInCharTable_roundtrip (ct : List Nat)
    (hb : ∀ x ∈ ct, x < 65536) :
    makeInCharTable ((ct.map encodeUtf16).flatten) = ct := by
  induction ct with
  | nil => rfl
  | cons c cs ih =>
    have hc : c < 65536 := hb c (by simp)
    rw [List.map_cons, List.flatten_cons, makeInCharTable]
    rw [encodeUtf16, if_pos hc]
    rw [sliceInto_full 2 [c % 256, c / 256] _ (by omega) rfl]
    rw [List.map_cons]
    have ih2 := ih (fun x hx => hb x (List.mem_cons_of_mem c hx))
    rw [makeInCharTable] at ih2
    rw [ih2]
    congr 1
    show c % 256 + 256 * (c / 256) = c
    omega

theorem flatten_drop_take (k : Nat) (hk : 0 < k) :
    ∀ (L : List (List Nat)), (∀ r ∈ L, r.length = k) →
      ∀ i, i < L.length →
        ((L.flatten).drop (k * i)).take k = L.getD i [] := by
  intro L
  induction L with
  | nil => intro _ i hi; simp at hi
  | cons r rest ih =>
    intro hall i hi
    rw [List.flatten_cons]
    rcases i with _ | j
    · rw [Nat.mul_zero, List.drop_zero, List.getD_cons_zero]
      exact take_append_at r _ k (hall r (by simp))
    · rw [show k * (j + 1) = k + k * j from by ring, ← List.drop_drop]
      rw [drop_append_at r _ k (hall r (by simp)), List.getD_cons_succ]
      exact ih (fun x hx => hall x (List.mem_cons_of_mem r hx)) j
        (by simpa using hi)

theorem hdr_rd16_0 (n cto cbo eof : Nat) (rest : List Nat) :
    rd16 ((le16 1 ++ le16 n ++ le32 cto ++ le32 cbo ++ le32 eof ++ [0, 0]) ++
      rest) 0 = 1 := rfl

theorem hdr_rd16_2 (n cto cbo eof : Nat) (rest : List Nat)
    (hn : n ≤ 65535) :
    rd16 ((le16 1 ++ le16 n ++ le32 cto ++ le32 cbo ++ le32 eof ++ [0, 0]) ++
      rest) 2 = n := by
  have h : rd16 ((le16 1 ++ le16 n ++ le32 cto ++ le32 cbo ++ le32 eof ++
      [0, 0]) ++ rest) 2 = n % 256 + 256 * (n / 256 % 256) := rfl
  rw [h]
  omega

theorem hdr_rd32_4 (n cto cbo eof : Nat) (rest : List Nat)
    (hb : cto < 4294967296) :
    rd32 ((le16 1 ++ le16 n ++ le32 cto ++ le32 cbo ++ le32 eof ++ [0, 0]) ++
      rest) 4 = cto := by
  have h : rd32 ((le16 1 ++ le16 n ++ le32 cto ++ le32 cbo ++ le32 eof ++
      [0, 0]) ++ rest) 4 = cto % 256 + 256 * (cto / 256 % 256) +
      65536 * (cto / 65536 % 256) + 16777216 * (cto / 16777216 % 256) := rfl
  rw [h]
  omega

theorem hdr_rd32_8 (n cto cbo eof : Nat) (rest : List Nat)
    (hb : cbo < 4294967296) :
    rd32 ((le16 1 ++ le16 n ++ le32 cto ++ le32 cbo ++ le32 eof ++ [0, 0]) ++
      rest) 8 = cbo := by
  have h : rd32 ((le16 1 ++ le16 n ++ le32 cto ++ le32 cbo ++ le32 eof ++
      [0, 0]) ++ rest) 8 = cbo % 256 + 256 * (cbo / 256 % 256) +
      65536 * (cbo / 65536 % 256) + 16777216 * (cbo / 16777216 % 256) := rfl
  rw [h]
  omega

theorem hdr_rd32_12 (n cto cbo eof : Nat) (rest : List Nat)
    (hb : eof < 4294967296) :
    rd32 ((le16 1 ++ le16 n ++ le32 cto ++ le32 cbo ++ le32 eof ++ [0, 0]) ++
      rest) 12 = eof := by
  have h : rd32 ((le16 1 ++ le16 n ++ le32 cto ++ le32 cbo ++ le32 eof ++
      [0, 0]) ++ rest) 12 = eof % 256 + 256 * (eof / 256 % 256) +
      65536 * (eof / 65536 % 256) + 16777216 * (eof / 16777216 % 256) := rfl
  rw [h]
  omega

theorem hdr_len18 (n cto cbo eof : Nat) :
    (le16 1 ++ le16 n ++ le32 cto ++ le32 cbo ++ le32 eof ++
      [0, 0]).length = 18 := rfl

theorem hdr_take18 (n cto cbo eof : Nat) (rest : List Nat) :
    ((le16 1 ++ le16 n ++ le32 cto ++ le32 cbo ++ le32 eof ++ [0, 0]) ++
      rest).take 18 =
      le16 1 ++ le16 n ++ le32 cto ++ le32 cbo ++ le32 eof ++ [0, 0] :=
  take_append_at _ _ 18 (hdr_len18 n cto cbo eof)

theorem hdr_drop18 (n cto cbo eof : Nat) (rest : List Nat) :
    ((le16 1 ++ le16 n ++ le32 cto ++ le32 cbo ++ le32 eof ++ [0, 0]) ++
      rest).drop 18 = rest :=
  drop_append_at _ _ 18 (hdr_len18 n cto cbo eof)

theorem parseBin_assembled (n cto cbo eof : Nat) (PD CT CB : List Nat)
    (hn : n ≤ 65535)
    (hcto : cto = 20 + PD.length)
    (hcbo : cbo = cto + CT.length)
    (hcto32 : cto < 4294967296) (hcbo32 : cbo < 4294967296)
    (heof32 : eof < 4294967296) :
    Route.parseBin
      (((le16 1 ++ le16 n ++ le32 cto ++ le32 cbo ++ le32 eof ++ [0, 0]) ++
          le16i (-((le16 1 ++ le16 n ++ le32 cto ++ le32 cbo ++ le32 eof ++
            [0, 0]).sum % 65536 : Int))) ++ PD ++ CT ++ CB) =
      some { headerStart := 1, numOfPoints := n, charTableOffset := cto,
             charBitmapsDataOffset := cbo, eofOffset := eof,
             chartable := makeInCharTable CT,
             points := (List.range n).map (fun i =>
               RoutePoint.fromBin (makeInCharTable CT)
                 ((PD.drop (76 * i)).take 76)) } := by
  set hpre := le16 1 ++ le16 n ++ le32 cto ++ le32 cbo ++ le32 eof ++ [0, 0]
    with hpre_def
  set cks := le16i (-(hpre.sum % 65536 : Int)) with cks_def
  have hplen : hpre.length = 18 := by
    rw [hpre_def]
    exact hdr_len18 n cto cbo eof
  have hckslen : cks.length = 2 := by
    rw [cks_def]
    exact le16i_length _
  have hH20len : (hpre ++ cks).length = 20 := by
    rw [List.length_append, hplen, hckslen]
  have htake20 : ((((hpre ++ cks) ++ PD) ++ CT) ++ CB).take 20 =
      hpre ++ cks := by
    rw [List.append_assoc, List.append_assoc]
    exact take_append_at _ _ 20 hH20len
  have hr0 : rd16 (hpre ++ cks) 0 = 1 := by
    rw [hpre_def]
    exact hdr_rd16_0 n cto cbo eof cks
  have hr2 : rd16 (hpre ++ cks) 2 = n := by
    rw [hpre_def]
    exact hdr_rd16_2 n cto cbo eof cks hn
  have hr4 : rd32 (hpre ++ cks) 4 = cto := by
    rw [hpre_def]
    exact hdr_rd32_4 n cto cbo eof cks hcto32
  have hr8 : rd32 (hpre ++ cks) 8 = cbo := by
    rw [hpre_def]
    exact hdr_rd32_8 n cto cbo eof cks hcbo32
  have hr12 : rd32 (hpre ++ cks) 12 = eof := by
    rw [hpre_def]
    exact hdr_rd32_12 n cto cbo eof cks heof32
  have hd18 : ((hpre ++ cks).drop 18).take 2 = cks := by
    rw [drop_append_at _ _ 18 hplen]
    exact List.take_of_length_le (by rw [hckslen])
  have ht18 : (hpre ++ cks).take 18 = hpre := take_append_at _ _ 18 hplen
  have hPDa : ((((hpre ++ cks) ++ PD) ++ CT) ++ CB).take cto =
      (hpre ++ cks) ++ PD := by
    rw [List.append_assoc ((hpre ++ cks) ++ PD) CT CB]
    exact take_append_at _ _ cto (by rw [List.length_append, hH20len]; omega)
  have hPDb : ((hpre ++ cks) ++ PD).drop 20 = PD :=
    drop_append_at _ _ 20 hH20len
  have hCTa : ((((hpre ++ cks) ++ PD) ++ CT) ++ CB).take cbo =
      ((hpre ++ cks) ++ PD) ++ CT := by
    refine take_append_at _ _ cbo ?_
    rw [List.length_append, List.length_append, hH20len]
    omega
  have hCTb : (((hpre ++ cks) ++ PD) ++ CT).drop cto = CT := by
    refine drop_append_at _ _ cto ?_
    rw [List.length_append, hH20len]
    omega
  simp only [Route.parseBin]
  rw [htake20, hr2, hr4, hr8, ht18, hd18]
  rw [if_neg (not_ne_iff.mpr cks_def)]
  rw [hr0, hr12, hPDa, hPDb, hCTa, hCTb, List.map_map]
  rfl

theorem getD_map_of_lt {α β : Type} (f : α → β) (l : List α) (i : Nat)
    (d : α) (e : β) (h : i < l.length) : (l.map f).getD i e = f (l.getD i d) := by
  rw [List.getD_eq_getElem?_getD, List.getD_eq_getElem?_getD,
    List.getElem?_eq_getElem h, List.getElem?_eq_getElem (by simpa using h)]
  simp

/-- C1 (amended): the Route encode→decode round trip.  For points whose
names hold at most 32 non-NUL, non-surrogate BMP code units and whose
symbol / coordinates are in 16-bit / signed-32-bit range (and at most
65535 points, with the standard 22-byte glyph bitmaps), `Route.parseBin`
accepts `Route.toBin`'s output — the header checksum validates — and
reproduces every point's name and symbol exactly; the coordinates come
back DIVIDED BY 1e5 (the decoder's fixed-point scaling), not equal to
the encoded integers. -/
theorem route_roundtrip_spec (glyph : Nat → List Nat)
    (points : List RoutePointIn)
    (hn : points.length ≤ 65535)
    (hname : ∀ p ∈ points, p.name.length ≤ 32)
    (hchar : ∀ p ∈ points, ∀ c ∈ p.name,
      c ≠ 0 ∧ c < 65536 ∧ ¬(55296 ≤ c ∧ c ≤ 57343))
    (hsym : ∀ p ∈ points, p.symbol < 65536)
    (hlat : ∀ p ∈ points, -2147483648 ≤ p.lat ∧ p.lat < 2147483648)
    (hlon : ∀ p ∈ points, -2147483648 ≤ p.lon ∧ p.lon < 2147483648)
    (hglyph : ∀ c, (glyph c).length = 22) :
    Route.parseBin (Route.toBin glyph points) =
      some { headerStart := 1, numOfPoints := points.length,
             charTableOffset := 20 + points.length * 76,
             charBitmapsDataOffset := 20 + points.length * 76 +
               (makeOutCharTable points).length * 2,
             eofOffset := 20 + points.length * 76 +
               (makeOutCharTable points).length * 2 +
               (makeOutCharTable points).length * 22,
             chartable := makeOutCharTable points,
             points := points.map (fun p =>
               { name := p.name, symbol := p.symbol,
                 lat := (p.lat : ℚ) / 100000,
                 lon := (p.lon : ℚ) / 100000 }) } := by
  have hctb : ∀ x ∈ makeOutCharTable points, x < 65536 := by
    intro x hx
    rcases makeOutCharTable_mem_src points x hx with h | ⟨p, hp, hc⟩
    · omega
    · exact (hchar p hp x hc).2.1
  have hct_nodup := makeOutCharTable_nodup points
  have hct_len : (makeOutCharTable points).length ≤ 65536 :=
    nodup_bounded_length _ hct_nodup hctb
  have hhead := makeOutCharTable_head points
  have hall76 : ∀ r ∈ points.map (RoutePoint.toBin (makeOutCharTable points)),
      r.length = 76 := by
    intro r hr
    simp only [List.mem_map] at hr
    obtain ⟨p, hp, hpr⟩ := hr
    rw [← hpr]
    exact routePointBin_length _ p (hname p hp)
  have hPDlen : ((points.map
      (RoutePoint.toBin (makeOutCharTable points))).flatten).length =
      points.length * 76 := by
    rw [flatten_length_of_all 76 _ hall76]
    simp
  have hCTlen : (((makeOutCharTable points).map encodeUtf16).flatten).length =
      (makeOutCharTable points).length * 2 := by
    rw [flatten_length_of_all 2]
    · simp
    · intro r hr
      simp only [List.mem_map] at hr
      obtain ⟨c, hc, hcr⟩ := hr
      rw [← hcr]
      exact encodeUtf16_length_bmp c (hctb c hc)
  have hCBlen : (((makeOutCharTable points).map glyph).flatten).length =
      (makeOutCharTable points).length * 22 := by
    rw [flatten_length_of_all 22]
    · simp
    · intro r hr
      simp only [List.mem_map] at hr
      obtain ⟨c, _, hcr⟩ := hr
      rw [← hcr]
      exact hglyph c
  have h32a : 20 + ((points.map
      (RoutePoint.toBin (makeOutCharTable points))).flatten).length <
      4294967296 := by
    rw [hPDlen]
    omega
  have h32b : 20 + ((points.map
      (RoutePoint.toBin (makeOutCharTable points))).flatten).length +
      (((makeOutCharTable points).map encodeUtf16).flatten).length <
      4294967296 := by
    rw [hPDlen, hCTlen]
    omega
  have h32c : 20 + ((points.map
      (RoutePoint.toBin (makeOutCharTable points))).flatten).length +
      (((makeOutCharTable points).map encodeUtf16).flatten).length +
      (((makeOutCharTable points).map glyph).flatten).length <
      4294967296 := by
    rw [hPDlen, hCTlen, hCBlen]
    omega
  simp only [Route.toBin]
  rw [parseBin_assembled _ _ _ _ _ _ _ hn rfl rfl h32a h32b h32c]
  have hmict : makeInCharTable
      (((makeOutCharTable points).map encodeUtf16).flatten) =
      makeOutCharTable points := makeInCharTable_roundtrip _ hctb
  rw [hmict]
  have hpt : (List.range points.length).map (fun i =>
      RoutePoint.fromBin (makeOutCharTable points)
        (((((points.map
          (RoutePoint.toBin (makeOutCharTable points))).flatten).drop
            (76 * i)).take 76))) =
      points.map (fun p =>
        ({ name := p.name, symbol := p.symbol,
           lat := (p.lat : ℚ) / 100000,
           lon := (p.lon : ℚ) / 100000 } : RoutePointOut)) := by
    have hstep : ∀ i ∈ List.range points.length,
        RoutePoint.fromBin (makeOutCharTable points)
          (((((points.map
            (RoutePoint.toBin (makeOutCharTable points))).flatten).drop
              (76 * i)).take 76)) =
        ({ name := (points.getD i ⟨[], 0, 0, 0⟩).name,
           symbol := (points.getD i ⟨[], 0, 0, 0⟩).symbol,
           lat := ((points.getD i ⟨[], 0, 0, 0⟩).lat : ℚ) / 100000,
           lon := ((points.getD i ⟨[], 0, 0, 0⟩).lon : ℚ) / 100000 } :
          RoutePointOut) := by
      intro i hi
      have hilt : i < points.length := List.mem_range.mp hi
      have hslice := flatten_drop_take 76 (by omega)
        (points.map (RoutePoint.toBin (makeOutCharTable points))) hall76 i
        (by simpa using hilt)
      rw [getD_map_of_lt (RoutePoint.toBin (makeOutCharTable points)) points i
        ⟨[], 0, 0, 0⟩ [] hilt] at hslice
      rw [hslice]
      have hpmem := getD_mem_any points ⟨[], 0, 0, 0⟩ i hilt
      exact routePoint_roundtrip (makeOutCharTable points)
        (points.getD i ⟨[], 0, 0, 0⟩)
        (hname _ hpmem) hct_len
        (fun c hc => makeOutCharTable_mem points _ hpmem c hc)
        (fun c hc => (hchar _ hpmem c hc).1)
        hhead (hsym _ hpmem)
        (hlat _ hpmem).1 (hlat _ hpmem).2
        (hlon _ hpmem).1 (hlon _ hpmem).2
    rw [List.map_congr_left hstep]
    exact map_range_getD points (fun p =>
      ({ name := p.name, symbol := p.symbol,
         lat := (p.lat : ℚ) / 100000,
         lon := (p.lon : ℚ) / 100000 } : RoutePointOut)) ⟨[], 0, 0, 0⟩
  rw [hpt, hPDlen, hCTlen, hCBlen]

/-- C1 counterexample to the frozen wording: encoding the single point
(name "A", symbol 7, lat 100000, lon 200000) and decoding it back gives
lat `1` (= 100000/1e5), not the original 100000 — `RoutePoint.fromBin`
rescales the fixed-point coordinates by `1e-5`, so decoded lat/lon never
equal the encoded integer fields (except at 0). -/
theorem route_roundtrip_counterexample :
    (Route.parseBin (Route.toBin (fun _ => List.replicate 22 0)
        [{ name := [65], symbol := 7, lat := 100000, lon := 200000 }])).map
      (fun r => r.points.map (fun p => (p.name, p.symbol, p.lat, p.lon))) =
      some [([65], 7, ((100000 : Int) : ℚ) / 100000,
             ((200000 : Int) : ℚ) / 100000)] ∧
    ((100000 : Int) : ℚ) / 100000 ≠ ((100000 : Int) : ℚ) := by
  constructor
  · rfl
  · norm_num

theorem route_roundtrip_spec_witness :
    Route.parseBin (Route.toBin (fun _ => List.replicate 22 0)
        [{ name := [65], symbol := 7, lat := 100000, lon := 200000 }]) =
      some { headerStart := 1,
             numOfPoints := ([{ name := [65], symbol := 7, lat := 100000, lon := 200000 }] : List RoutePointIn).length,
             charTableOffset := 20 + ([{ name := [65], symbol := 7, lat := 100000, lon := 200000 }] : List RoutePointIn).length * 76,
             charBitmapsDataOffset := 20 + ([{ name := [65], symbol := 7, lat := 100000, lon := 200000 }] : List RoutePointIn).length * 76 + (makeOutCharTable [{ name := [65], symbol := 7, lat := 100000, lon := 200000 }]).length * 2,
             eofOffset := 20 + ([{ name := [65], symbol := 7, lat := 100000, lon := 200000 }] : List RoutePointIn).length * 76 + (makeOutCharTable [{ name := [65], symbol := 7, lat := 100000, lon := 200000 }]).length * 2 + (makeOutCharTable [{ name := [65], symbol := 7, lat := 100000, lon := 200000 }]).length * 22,
             chartable := makeOutCharTable [{ name := [65], symbol := 7, lat := 100000, lon := 200000 }],
             points := ([{ name := [65], symbol := 7, lat := 100000, lon := 200000 }] : List RoutePointIn).map (fun p =>
                 { name := p.name, symbol := p.symbol,
                   lat := (p.lat : ℚ) / 100000,
                   lon := (p.lon : ℚ) / 100000 }) } :=
  route_roundtrip_spec (fun _ => List.replicate 22 0)
    [{ name := [65], symbol := 7, lat := 100000, lon := 200000 }]
    (by decide) (by decide) (by decide) (by decide) (by decide) (by decide)
    (fun _ => rfl)
